import Mathlib

/-!
Incentive store and allocation-meter accounting
(`x/incentives/keeper/incentives.go`).

A shallow embedding of the keeper functions of `incentives.go`.

* Go byte slices and Go strings are finite sequences of byte values (`Bytes`).
* The persistent key-value store is the namespaced store of the
  specification: get, set, delete, has and forward iteration over a key
  namespace, in ascending order of the keys (Go's `bytes.Compare`). It is
  represented by its list of entries in iteration order; the functions are
  defined on every list, and `KVStore.Ordered` is the invariant they keep.
* A Go panic (`MustUnmarshal` on bytes that do not decode) is the result `none`.
* The codec, the two key namespaces and the address parser are collaborators
  declared outside this file of the repository; they are fields of `Keeper`.
-/

namespace Incentives

/-! ## Data model -/

/-- Go byte slices and Go strings: finite sequences of byte values. -/
abbrev Bytes := List Nat

/-- Modelled from the spec: the amount of an allocation or of a meter, a signed
decimal quantity (`sdk.Dec`) of unbounded size, counted in units of its
smallest fraction. -/
abbrev Dec := Int

/-- Modelled from the spec: one allocation or one meter, a denomination with
an amount (`sdk.DecCoin`). -/
structure DecCoin where
  Denom : Bytes
  Amount : Dec
deriving DecidableEq, Repr

/-- Modelled from the spec: the incentive record (`types.Incentive`), with the
fields the keeper reads and writes: the contract it is attached to (a string
that `common.HexToAddress` parses), its allocations and its cumulative gas. -/
structure Incentive where
  Contract : Bytes
  Allocations : List DecCoin
  TotalGas : Nat
deriving DecidableEq, Repr

/-- The Go zero value `types.Incentive{}`. -/
def Incentive.zero : Incentive := ⟨[], [], 0⟩

/-! ## The key-value store -/

/-- The store: its entries `(key, value)` in iteration order. -/
abbrev KVStore := List (Bytes × Bytes)

/-- The order of keys, `bytes.Compare(a, b) < 0`: lexicographic, a proper
prefix before its extensions. -/
def bytesLt : Bytes → Bytes → Bool
  | [], [] => false
  | [], _ :: _ => true
  | _ :: _, [] => false
  | a :: as, b :: bs => decide (a < b) || (decide (a = b) && bytesLt as bs)

/-- The test `bytes.HasPrefix(key, p)`. -/
def hasPrefix : Bytes → Bytes → Bool
  | [], _ => true
  | _ :: _, [] => false
  | a :: p, b :: key => decide (a = b) && hasPrefix p key

/-- The representation invariant of a store: its entries are listed in
strictly ascending key order (so no key occurs twice). -/
def KVStore.Ordered (s : KVStore) : Prop :=
  List.Pairwise (fun a b => bytesLt a.1 b.1 = true) s

/-- The lookup `store.Get(key)`: `none` is Go's `nil`. -/
def KVStore.Get : KVStore → Bytes → Option Bytes
  | [], _ => none
  | (k, v) :: rest, key => if k = key then some v else KVStore.Get rest key

/-- The test `store.Has(key)`. -/
def KVStore.Has (s : KVStore) (key : Bytes) : Bool :=
  (KVStore.Get s key).isSome

/-- The upsert `store.Set(key, value)`. -/
def KVStore.Set : KVStore → Bytes → Bytes → KVStore
  | [], key, value => [(key, value)]
  | (k, v) :: rest, key, value =>
    if key = k then (key, value) :: rest
    else if bytesLt key k then (key, value) :: (k, v) :: rest
    else (k, v) :: KVStore.Set rest key value

/-- The removal `store.Delete(key)`. -/
def KVStore.Delete (s : KVStore) (key : Bytes) : KVStore :=
  s.filter (fun e => decide (e.1 ≠ key))

/-- The entries visited by `sdk.KVStorePrefixIterator(store, p)`: those whose
key starts with `p`, in ascending key order. -/
def KVStorePrefixIterator (s : KVStore) (p : Bytes) : List (Bytes × Bytes) :=
  s.filter (fun e => hasPrefix p e.1)

/-! ## The keeper and its collaborators -/

/-- The binary codec `k.cdc`. Decoding bytes that are no encoding panics
(`none`). -/
structure Codec where
  MustMarshal : Incentive → Bytes
  MustUnmarshal : Bytes → Option Incentive
  MustMarshalDec : Dec → Bytes
  MustUnmarshalDec : Bytes → Option Dec

/-- The keeper with the package-level collaborators its methods reach: the
codec, the key namespaces `types.KeyPrefixIncentive` and the one of the
allocation meters, and `common.HexToAddress`. -/
structure Keeper where
  cdc : Codec
  KeyPrefixIncentive : Bytes
  KeyPrefixAllocationMeter : Bytes
  HexToAddress : Bytes → Bytes

/-- Decoding an incentive gives back what was encoded. -/
def Keeper.RoundTrip (k : Keeper) : Prop :=
  ∀ i : Incentive, k.cdc.MustUnmarshal (k.cdc.MustMarshal i) = some i

/-- No incentive is encoded as the empty byte string. -/
def Keeper.NonEmptyEncoding (k : Keeper) : Prop :=
  ∀ i : Incentive, k.cdc.MustMarshal i ≠ []

/-- Decoding an amount gives back what was encoded. -/
def Keeper.DecRoundTrip (k : Keeper) : Prop :=
  ∀ d : Dec, k.cdc.MustUnmarshalDec (k.cdc.MustMarshalDec d) = some d

/-- The two namespaces share no key: no incentive key is a meter key. -/
def Keeper.DisjointNamespaces (k : Keeper) : Prop :=
  ∀ a d : Bytes, k.KeyPrefixIncentive ++ a ≠ k.KeyPrefixAllocationMeter ++ d

/-! ## Allocation meters -/

/-- Modelled from the spec: `GetAllocationMeter`, the point lookup of a meter
(declared in another file of the keeper package). An absent denomination
yields `found = false` with zero amount; the key is the denomination's bytes
in the meter namespace. -/
def GetAllocationMeter (k : Keeper) (s : KVStore) (denom : Bytes) : Option (DecCoin × Bool) :=
  match KVStore.Get s (k.KeyPrefixAllocationMeter ++ denom) with
  | none => some (⟨denom, 0⟩, false)
  | some bz =>
    match k.cdc.MustUnmarshalDec bz with
    | none => none
    | some amount => some (⟨denom, amount⟩, true)

/-- Modelled from the spec: `SetAllocationMeter`, the unconditional upsert of
a meter keyed by its denomination (declared in another file of the keeper
package). -/
def SetAllocationMeter (k : Keeper) (s : KVStore) (am : DecCoin) : KVStore :=
  KVStore.Set s (k.KeyPrefixAllocationMeter ++ am.Denom) (k.cdc.MustMarshalDec am.Amount)

/-! ## incentives.go -/

/-- The loop of `GetAllIncentives` over the iterator: decode each value and
append it to the slice built so far. -/
def GetAllIncentives.loop (k : Keeper) : List (Bytes × Bytes) → List Incentive → Option (List Incentive)
  | [], incentives => some incentives
  | e :: rest, incentives =>
    match k.cdc.MustUnmarshal e.2 with
    | none => none
    | some incentive => GetAllIncentives.loop k rest (incentives ++ [incentive])

/-- The method `GetAllIncentives`: all registered incentives. -/
def GetAllIncentives (k : Keeper) (s : KVStore) : Option (List Incentive) :=
  GetAllIncentives.loop k (KVStorePrefixIterator s k.KeyPrefixIncentive) []

/-- The loop of `IterateIncentives`. The handler is a Go closure: it is given
its own state `h` next to the record and returns the new state with the stop
flag. -/
def IterateIncentives.loop {σ : Type} (k : Keeper) (handlerFn : σ → Incentive → σ × Bool) :
    List (Bytes × Bytes) → σ → Option σ
  | [], h => some h
  | e :: rest, h =>
    match k.cdc.MustUnmarshal e.2 with
    | none => none
    | some incentive =>
      if (handlerFn h incentive).2 then some (handlerFn h incentive).1
      else IterateIncentives.loop k handlerFn rest (handlerFn h incentive).1

/-- The method `IterateIncentives`: run the callback over the registered
incentives until it asks to stop. The result is the final state of the
callback. -/
def IterateIncentives {σ : Type} (k : Keeper) (s : KVStore)
    (handlerFn : σ → Incentive → σ × Bool) (h : σ) : Option σ :=
  IterateIncentives.loop k handlerFn (KVStorePrefixIterator s k.KeyPrefixIncentive) h

/-- The method `GetIncentive`: the incentive registered for a contract, with
the found flag. -/
def GetIncentive (k : Keeper) (s : KVStore) (contract : Bytes) : Option (Incentive × Bool) :=
  match KVStore.Get s (k.KeyPrefixIncentive ++ contract) with
  | none => some (Incentive.zero, false)
  | some bz =>
    if bz.length = 0 then some (Incentive.zero, false)
    else
      match k.cdc.MustUnmarshal bz with
      | none => none
      | some incentive => some (incentive, true)

/-- The method `SetIncentive`: store an incentive under its contract key. -/
def SetIncentive (k : Keeper) (s : KVStore) (incentive : Incentive) : KVStore :=
  KVStore.Set s (k.KeyPrefixIncentive ++ k.HexToAddress incentive.Contract)
    (k.cdc.MustMarshal incentive)

/-- The loop of `DeleteIncentiveAndUpdateAllocationMeters`: read each
allocation's meter, subtract the allocation and write the meter back. -/
def DeleteIncentiveAndUpdateAllocationMeters.loop (k : Keeper) : List DecCoin → KVStore → Option KVStore
  | [], s => some s
  | al :: rest, s =>
    match GetAllocationMeter k s al.Denom with
    | none => none
    | some (am, _) =>
      DeleteIncentiveAndUpdateAllocationMeters.loop k rest
        (SetAllocationMeter k s ⟨al.Denom, am.Amount - al.Amount⟩)

/-- The method `DeleteIncentiveAndUpdateAllocationMeters`: remove the record
under the incentive's contract key, then subtract its allocations from the
meters. -/
def DeleteIncentiveAndUpdateAllocationMeters (k : Keeper) (s : KVStore) (incentive : Incentive) :
    Option KVStore :=
  DeleteIncentiveAndUpdateAllocationMeters.loop k incentive.Allocations
    (KVStore.Delete s (k.KeyPrefixIncentive ++ k.HexToAddress incentive.Contract))

/-- The method `IsIncentiveRegistered`: is a record stored under the contract
key. -/
def IsIncentiveRegistered (k : Keeper) (s : KVStore) (contract : Bytes) : Bool :=
  KVStore.Has s (k.KeyPrefixIncentive ++ contract)

/-- The method `SetIncentiveTotalGas`: set the cumulative gas of the incentive
and store it. -/
def SetIncentiveTotalGas (k : Keeper) (s : KVStore) (incentive : Incentive) (gas : Nat) : KVStore :=
  SetIncentive k s { incentive with TotalGas := gas }

/-! ## Notions of the specification -/

/-- The amount a list of allocations gives to a denomination: the sum of the
amounts of its allocations with that denomination. -/
def allocationSum (denom : Bytes) (allocations : List DecCoin) : Dec :=
  ((allocations.filter (fun a => decide (a.Denom = denom))).map DecCoin.Amount).sum

/-- The amount a list of incentives gives to a denomination. -/
def allocationTotal (denom : Bytes) (incentives : List Incentive) : Dec :=
  (incentives.map (fun i => allocationSum denom i.Allocations)).sum

/-- The meters of the denominations of the allocations can be read: what is
stored under them decodes. -/
def MetersReadable (k : Keeper) (s : KVStore) (allocations : List DecCoin) : Prop :=
  ∀ al ∈ allocations, (GetAllocationMeter k s al.Denom).isSome = true

/-- The reconciliation invariant: the registered incentives can be listed, and
for every denomination the meter amount (zero when the meter is absent) is the
sum of the allocations of all registered incentives for that denomination. -/
def Reconciled (k : Keeper) (s : KVStore) : Prop :=
  ∃ incentives, GetAllIncentives k s = some incentives ∧
    ∀ denom : Bytes, ∃ found,
      GetAllocationMeter k s denom = some (⟨denom, allocationTotal denom incentives⟩, found)

/-- The codec encodes the incentive faithfully: its encoding is not empty and
decodes to it. -/
def Keeper.Encodes (k : Keeper) (i : Incentive) : Prop :=
  k.cdc.MustUnmarshal (k.cdc.MustMarshal i) = some i ∧ k.cdc.MustMarshal i ≠ []

/-- The last incentive of a sequence whose contract parses to the address
`contract`. -/
def lastFor (k : Keeper) (contract : Bytes) (l : List Incentive) : Option Incentive :=
  l.reverse.find? (fun i => decide (k.HexToAddress i.Contract = contract))

/-- The states reachable from the empty store by `SetIncentive`,
`SetIncentiveTotalGas` and `DeleteIncentiveAndUpdateAllocationMeters`. -/
inductive Reachable (k : Keeper) : KVStore → Prop
  | empty : Reachable k []
  | setIncentive (s : KVStore) (incentive : Incentive) :
      Reachable k s → Reachable k (SetIncentive k s incentive)
  | setTotalGas (s : KVStore) (incentive : Incentive) (gas : Nat) :
      Reachable k s → Reachable k (SetIncentiveTotalGas k s incentive gas)
  | delete (s : KVStore) (incentive : Incentive) (s2 : KVStore) :
      Reachable k s → DeleteIncentiveAndUpdateAllocationMeters k s incentive = some s2 →
      Reachable k s2

/-- Key consistency: every entry of the incentive namespace decodes to a
record whose contract parses to the address it is stored under. -/
def KeyConsistent (k : Keeper) (s : KVStore) : Prop :=
  ∀ e ∈ KVStorePrefixIterator s k.KeyPrefixIncentive,
    ∃ incentive, k.cdc.MustUnmarshal e.2 = some incentive ∧
      e.1 = k.KeyPrefixIncentive ++ k.HexToAddress incentive.Contract

/-- The contract keys of a list of incentives. -/
def contractKeys (k : Keeper) (incentives : List Incentive) : List Bytes :=
  incentives.map (fun i => k.HexToAddress i.Contract)

/-- The callback of `IterateIncentives` with a log: next to its own state it
keeps the list of the records it has been called on. -/
def logged {σ : Type} (handlerFn : σ → Incentive → σ × Bool) :
    σ × List Incentive → Incentive → (σ × List Incentive) × Bool :=
  fun h incentive =>
    (((handlerFn h.1 incentive).1, h.2 ++ [incentive]), (handlerFn h.1 incentive).2)

/-- The state of a callback after it has been called on the records of a list
in turn. -/
def stateAfter {σ : Type} (handlerFn : σ → Incentive → σ × Bool) (h : σ)
    (records : List Incentive) : σ :=
  records.foldl (fun h i => (handlerFn h i).1) h

/-- The callback, called on the records of a list in turn, never asks to
stop. -/
def neverStops {σ : Type} (handlerFn : σ → Incentive → σ × Bool) : σ → List Incentive → Prop
  | _, [] => True
  | h, i :: rest => (handlerFn h i).2 = false ∧ neverStops handlerFn (handlerFn h i).1 rest

/-- An entry as the keeper writes it: an incentive encoded under its contract
key, or an amount encoded under the key of its denomination. -/
def Keeper.Writes (k : Keeper) (e : Bytes × Bytes) : Prop :=
  (∃ incentive : Incentive,
    e = (k.KeyPrefixIncentive ++ k.HexToAddress incentive.Contract,
      k.cdc.MustMarshal incentive)) ∨
  (∃ am : DecCoin, e = (k.KeyPrefixAllocationMeter ++ am.Denom, k.cdc.MustMarshalDec am.Amount))

/-- The frame of an upsert under the contract key `contract`, from `s` to
`s2`: every meter reads as before, and every other contract key reads as
before. -/
def UpsertFrame (k : Keeper) (contract : Bytes) (s s2 : KVStore) : Prop :=
  (∀ denom, GetAllocationMeter k s2 denom = GetAllocationMeter k s denom) ∧
  (∀ other, other ≠ contract →
    GetIncentive k s2 other = GetIncentive k s other ∧
    IsIncentiveRegistered k s2 other = IsIncentiveRegistered k s other)

/-! ## A concrete keeper

A keeper to run the definitions on: the namespaces `0x01` and `0x03`, the
address parser after go-ethereum's `common.HexToAddress`, and a small codec. -/

/-- The bytes of an ASCII string literal. -/
def str (s : String) : Bytes := s.toList.map Char.toNat

/-- The value of a hexadecimal digit. -/
def hexDigit (c : Nat) : Option Nat :=
  if 48 ≤ c ∧ c ≤ 57 then some (c - 48)
  else if 97 ≤ c ∧ c ≤ 102 then some (c - 87)
  else if 65 ≤ c ∧ c ≤ 70 then some (c - 55)
  else none

/-- The function `common.Hex2Bytes`: the bytes decoded before the first
character that is no hexadecimal digit. -/
def Hex2Bytes : Bytes → Bytes
  | a :: b :: rest =>
    match hexDigit a, hexDigit b with
    | some x, some y => (16 * x + y) :: Hex2Bytes rest
    | _, _ => []
  | _ => []

/-- The function `common.FromHex`: drop a leading `0x` or `0X`, pad an odd
number of digits with a leading `0`, decode. -/
def FromHex (s : Bytes) : Bytes :=
  let t := match s with
    | 48 :: c :: rest => if c = 120 ∨ c = 88 then rest else s
    | _ => s
  Hex2Bytes (if t.length % 2 = 1 then 48 :: t else t)

/-- The function `common.BytesToAddress`: the last 20 bytes, padded with
zeros on the left. -/
def BytesToAddress (b : Bytes) : Bytes :=
  List.replicate (20 - b.length) 0 ++ b.drop (b.length - 20)

/-- The encoding of an amount by the sample codec: sign and magnitude. -/
def sampleMarshalDec : Dec → Bytes
  | Int.ofNat n => [0, n]
  | Int.negSucc n => [1, n]

/-- The decoding of an amount by the sample codec. -/
def sampleUnmarshalDec : Bytes → Option Dec
  | [0, n] => some (Int.ofNat n)
  | [1, n] => some (Int.negSucc n)
  | _ => none

/-- The encoding of an allocation list by the sample codec: each allocation
as the length of its denomination, the denomination and the amount. -/
def sampleMarshalAllocations : List DecCoin → Bytes
  | [] => []
  | c :: cs => c.Denom.length :: (c.Denom ++ (sampleMarshalDec c.Amount ++ sampleMarshalAllocations cs))

/-- The decoding of an allocation list by the sample codec, at most `fuel`
allocations. -/
def sampleUnmarshalAllocations : Nat → Bytes → Option (List DecCoin)
  | 0, _ => none
  | _ + 1, [] => some []
  | fuel + 1, n :: rest =>
    match rest.drop n with
    | sign :: m :: rest2 =>
      if rest.length < n then none
      else
        match sampleUnmarshalDec [sign, m], sampleUnmarshalAllocations fuel rest2 with
        | some a, some cs => some (⟨rest.take n, a⟩ :: cs)
        | _, _ => none
    | _ => none

/-- The encoding of an incentive by the sample codec: a tag, the length of
the contract string, the contract string, the gas and the allocations. -/
def sampleMarshal (i : Incentive) : Bytes :=
  10 :: i.Contract.length :: (i.Contract ++ i.TotalGas :: sampleMarshalAllocations i.Allocations)

/-- The decoding of an incentive by the sample codec. -/
def sampleUnmarshal : Bytes → Option Incentive
  | 10 :: n :: rest =>
    match rest.drop n with
    | gas :: rest2 =>
      if rest.length < n then none
      else (sampleUnmarshalAllocations (rest2.length + 1) rest2).map (fun cs => ⟨rest.take n, cs, gas⟩)
    | [] => none
  | _ => none

/-- The sample codec. -/
def sampleCodec : Codec := ⟨sampleMarshal, sampleUnmarshal, sampleMarshalDec, sampleUnmarshalDec⟩

/-- The sample keeper. -/
def sampleKeeper : Keeper := ⟨sampleCodec, [1], [3], fun s => BytesToAddress (FromHex s)⟩

/-! ## Example states -/

/-- The incentive of the example scenario: contract `0xAA` with the
allocations `uatom 10` and `uosmo 5`. -/
def exampleIncentive : Incentive :=
  ⟨str "0xAA", [⟨str "uatom", 10⟩, ⟨str "uosmo", 5⟩], 0⟩

/-- The state of the example scenario: the incentive is registered and the
meters stand at `uatom = 10` and `uosmo = 5`. -/
def exampleState : KVStore :=
  SetAllocationMeter sampleKeeper
    (SetAllocationMeter sampleKeeper (SetIncentive sampleKeeper [] exampleIncentive)
      ⟨str "uatom", 10⟩)
    ⟨str "uosmo", 5⟩

/-- An incentive whose allocation list names `uatom` twice. -/
def repeatedIncentive : Incentive :=
  ⟨str "0xAA", [⟨str "uatom", 10⟩, ⟨str "uatom", 5⟩], 0⟩

/-- A state in which `repeatedIncentive` is registered and the meter stands at
`uatom = 15`. -/
def repeatedState : KVStore :=
  SetAllocationMeter sampleKeeper (SetIncentive sampleKeeper [] repeatedIncentive)
    ⟨str "uatom", 15⟩

/-- Three incentives whose creation order A, B, C is not the order of their
addresses: A is at `0xCC`, B at `0xAA` and C at `0xBB`. -/
def incentiveA : Incentive := ⟨str "0xCC", [⟨str "uatom", 1⟩], 1⟩

/-- The incentive B, at `0xAA`. -/
def incentiveB : Incentive := ⟨str "0xAA", [⟨str "uosmo", 2⟩], 2⟩

/-- The incentive C, at `0xBB`. -/
def incentiveC : Incentive := ⟨str "0xBB", [], 3⟩

/-- The state after registering A, B and C in that order. -/
def abcState : KVStore :=
  SetIncentive sampleKeeper (SetIncentive sampleKeeper (SetIncentive sampleKeeper [] incentiveA)
    incentiveB) incentiveC

/-- A callback that counts the records it is given and asks to stop at the
second. -/
def stopAtSecond : Nat → Incentive → Nat × Bool :=
  fun n _ => (n + 1, decide (n + 1 = 2))

/-- A callback that counts the records it is given and never asks to stop. -/
def countAll : Nat → Incentive → Nat × Bool :=
  fun n _ => (n + 1, false)

/-- The example incentive with its contract written in lower case: `0xaa`
parses to the same address as `0xAA`. -/
def exampleIncentiveLower : Incentive :=
  ⟨str "0xaa", [⟨str "uatom", 10⟩, ⟨str "uosmo", 5⟩], 0⟩

/-- A store that holds the empty byte string under the contract key of
`0xAA`. -/
def emptyValueState : KVStore :=
  [(sampleKeeper.KeyPrefixIncentive ++ sampleKeeper.HexToAddress (str "0xAA"), [])]

/-! ## The order of keys -/

theorem bytesLt_irrefl (a : Bytes) : bytesLt a a = false := by
  induction a with
  | nil => rfl
  | cons x xs ih => simp [bytesLt, ih]

theorem bytesLt_trans : ∀ {a b c : Bytes}, bytesLt a b = true → bytesLt b c = true →
    bytesLt a c = true := by
  intro a
  induction a with
  | nil =>
    intro b c hab hbc
    cases b with
    | nil => simp [bytesLt] at hab
    | cons y ys =>
      cases c with
      | nil => simp [bytesLt] at hbc
      | cons z zs => simp [bytesLt]
  | cons x xs ih =>
    intro b c hab hbc
    cases b with
    | nil => simp [bytesLt] at hab
    | cons y ys =>
      cases c with
      | nil => simp [bytesLt] at hbc
      | cons z zs =>
        simp only [bytesLt, Bool.or_eq_true, Bool.and_eq_true, decide_eq_true_eq] at hab hbc ⊢
        rcases hab with hxy | ⟨hxy, hrest⟩
        · rcases hbc with hyz | ⟨hyz, _⟩
          · exact Or.inl (by omega)
          · exact Or.inl (by omega)
        · rcases hbc with hyz | ⟨hyz, hrest2⟩
          · exact Or.inl (by omega)
          · exact Or.inr ⟨by omega, ih hrest hrest2⟩

theorem bytesLt_total : ∀ {a b : Bytes}, bytesLt a b = false → a ≠ b → bytesLt b a = true := by
  intro a
  induction a with
  | nil =>
    intro b hab hne
    cases b with
    | nil => exact absurd rfl hne
    | cons y ys => simp [bytesLt] at hab
  | cons x xs ih =>
    intro b hab hne
    cases b with
    | nil => simp [bytesLt]
    | cons y ys =>
      simp only [bytesLt, Bool.or_eq_false_iff, Bool.and_eq_false_imp, decide_eq_false_iff_not,
        decide_eq_true_eq] at hab
      simp only [bytesLt, Bool.or_eq_true, Bool.and_eq_true, decide_eq_true_eq]
      by_cases hxy : x = y
      · subst hxy
        refine Or.inr ⟨rfl, ih (hab.2 rfl) ?_⟩
        intro h
        exact hne (by rw [h])
      · exact Or.inl (by omega)

theorem bytesLt_ne {a b : Bytes} (h : bytesLt a b = true) : a ≠ b := by
  intro hab
  rw [hab, bytesLt_irrefl] at h
  exact Bool.false_ne_true h

theorem bytesLt_asymm {a b : Bytes} (h : bytesLt a b = true) : bytesLt b a = false := by
  cases hba : bytesLt b a with
  | false => rfl
  | true =>
    have := bytesLt_trans h hba
    rw [bytesLt_irrefl] at this
    exact absurd this Bool.false_ne_true

theorem bytesLt_append_left (p a b : Bytes) : bytesLt (p ++ a) (p ++ b) = bytesLt a b := by
  induction p with
  | nil => rfl
  | cons x xs ih => simp [bytesLt, ih]

theorem hasPrefix_append (p r : Bytes) : hasPrefix p (p ++ r) = true := by
  induction p with
  | nil => rfl
  | cons x xs ih => simp [hasPrefix, ih]

theorem hasPrefix_elim : ∀ {p key : Bytes}, hasPrefix p key = true → ∃ r, key = p ++ r := by
  intro p
  induction p with
  | nil => intro key _; exact ⟨key, rfl⟩
  | cons x xs ih =>
    intro key h
    cases key with
    | nil => simp [hasPrefix] at h
    | cons y ys =>
      simp only [hasPrefix, Bool.and_eq_true, decide_eq_true_eq] at h
      obtain ⟨r, hr⟩ := ih h.2
      exact ⟨r, by rw [h.1, hr]; rfl⟩

/-! ## The laws of the store -/

theorem Get_Set_same (s : KVStore) (key value : Bytes) :
    KVStore.Get (KVStore.Set s key value) key = some value := by
  induction s with
  | nil => simp [KVStore.Set, KVStore.Get]
  | cons e rest ih =>
    obtain ⟨k, v⟩ := e
    by_cases h1 : key = k
    · simp [KVStore.Set, KVStore.Get, h1]
    · by_cases h2 : bytesLt key k = true
      · simp [KVStore.Set, KVStore.Get, h1, h2]
      · have h3 : ¬ k = key := fun h => h1 h.symm
        simp [KVStore.Set, KVStore.Get, h1, h2, h3, ih]

theorem Get_Set_other (s : KVStore) {key key2 : Bytes} (value : Bytes) (h : key2 ≠ key) :
    KVStore.Get (KVStore.Set s key value) key2 = KVStore.Get s key2 := by
  have h0 : ¬ key = key2 := fun h' => h h'.symm
  induction s with
  | nil => simp [KVStore.Set, KVStore.Get, h0]
  | cons e rest ih =>
    obtain ⟨k, v⟩ := e
    by_cases h1 : key = k
    · subst h1
      simp [KVStore.Set, KVStore.Get, h0]
    · by_cases h2 : bytesLt key k = true
      · simp [KVStore.Set, KVStore.Get, h1, h2, h0]
      · simp [KVStore.Set, KVStore.Get, h1, h2, ih]

theorem Get_Delete_same (s : KVStore) (key : Bytes) :
    KVStore.Get (KVStore.Delete s key) key = none := by
  induction s with
  | nil => rfl
  | cons e rest ih =>
    obtain ⟨k, v⟩ := e
    by_cases h1 : k = key
    · simpa [KVStore.Delete, h1] using ih
    · have : KVStore.Delete ((k, v) :: rest) key = (k, v) :: KVStore.Delete rest key := by
        simp [KVStore.Delete, h1]
      rw [this]
      simp [KVStore.Get, h1, ih]

theorem Get_Delete_other (s : KVStore) {key key2 : Bytes} (h : key2 ≠ key) :
    KVStore.Get (KVStore.Delete s key) key2 = KVStore.Get s key2 := by
  induction s with
  | nil => rfl
  | cons e rest ih =>
    obtain ⟨k, v⟩ := e
    by_cases h1 : k = key
    · have h2 : ¬ k = key2 := fun h' => h (by rw [← h', h1])
      have : KVStore.Delete ((k, v) :: rest) key = KVStore.Delete rest key := by
        simp [KVStore.Delete, h1]
      rw [this, ih]
      simp [KVStore.Get, h2]
    · have : KVStore.Delete ((k, v) :: rest) key = (k, v) :: KVStore.Delete rest key := by
        simp [KVStore.Delete, h1]
      rw [this]
      simp [KVStore.Get, ih]

theorem mem_Set {s : KVStore} {key value : Bytes} {e : Bytes × Bytes}
    (h : e ∈ KVStore.Set s key value) : e = (key, value) ∨ e ∈ s := by
  induction s with
  | nil => simpa [KVStore.Set] using h
  | cons e0 rest ih =>
    obtain ⟨k, v⟩ := e0
    by_cases h1 : key = k
    · simp only [KVStore.Set, h1, if_true, List.mem_cons] at h
      rcases h with h | h
      · exact Or.inl (h.trans (by rw [h1]))
      · exact Or.inr (List.mem_cons_of_mem _ h)
    · by_cases h2 : bytesLt key k = true
      · simp only [KVStore.Set, h1, h2, if_true, if_false, List.mem_cons] at h
        rcases h with h | h | h
        · exact Or.inl h
        · exact Or.inr (List.mem_cons.mpr (Or.inl h))
        · exact Or.inr (List.mem_cons_of_mem _ h)
      · simp only [KVStore.Set, h1, h2, if_false, List.mem_cons, Bool.false_eq_true] at h
        rcases h with h | h
        · exact Or.inr (List.mem_cons.mpr (Or.inl h))
        · rcases ih h with h | h
          · exact Or.inl h
          · exact Or.inr (List.mem_cons_of_mem _ h)

theorem Ordered_nil : KVStore.Ordered [] := List.Pairwise.nil

theorem Ordered_Set {s : KVStore} (hs : KVStore.Ordered s) (key value : Bytes) :
    KVStore.Ordered (KVStore.Set s key value) := by
  induction s with
  | nil => simp [KVStore.Set, KVStore.Ordered]
  | cons e0 rest ih =>
    obtain ⟨k, v⟩ := e0
    have hs2 := List.pairwise_cons.mp hs
    by_cases h1 : key = k
    · subst h1
      simp only [KVStore.Set, if_true]
      exact List.pairwise_cons.mpr ⟨hs2.1, hs2.2⟩
    · by_cases h2 : bytesLt key k = true
      · simp only [KVStore.Set, h1, h2, if_true, if_false]
        refine List.pairwise_cons.mpr ⟨?_, hs⟩
        intro e he
        rcases List.mem_cons.mp he with he | he
        · rw [he]; exact h2
        · exact bytesLt_trans h2 (hs2.1 e he)
      · simp only [KVStore.Set, h1, h2, if_false, Bool.false_eq_true]
        refine List.pairwise_cons.mpr ⟨?_, ih hs2.2⟩
        intro e he
        rcases mem_Set he with he | he
        · rw [he]
          exact bytesLt_total (by simpa using h2) h1
        · exact hs2.1 e he

theorem Ordered_Delete {s : KVStore} (hs : KVStore.Ordered s) (key : Bytes) :
    KVStore.Ordered (KVStore.Delete s key) :=
  List.Pairwise.filter _ hs

theorem Ordered_Iterator {s : KVStore} (hs : KVStore.Ordered s) (p : Bytes) :
    KVStore.Ordered (KVStorePrefixIterator s p) :=
  List.Pairwise.filter _ hs


theorem mem_of_Get {s : KVStore} {key value : Bytes} (h : KVStore.Get s key = some value) :
    (key, value) ∈ s := by
  induction s with
  | nil => simp [KVStore.Get] at h
  | cons e rest ih =>
    obtain ⟨k, v⟩ := e
    by_cases h1 : k = key
    · simp only [KVStore.Get, h1, if_true, Option.some.injEq] at h
      rw [h1, h]
      exact List.mem_cons_self _ _
    · simp only [KVStore.Get, h1, if_false] at h
      exact List.mem_cons_of_mem _ (ih h)

theorem Get_of_mem {s : KVStore} (hs : KVStore.Ordered s) {key value : Bytes}
    (h : (key, value) ∈ s) : KVStore.Get s key = some value := by
  induction s with
  | nil => simp at h
  | cons e rest ih =>
    obtain ⟨k, v⟩ := e
    have hs2 := List.pairwise_cons.mp hs
    rcases List.mem_cons.mp h with h | h
    · cases h
      simp [KVStore.Get]
    · have hlt : bytesLt k key = true := hs2.1 _ h
      have hne : ¬ k = key := bytesLt_ne hlt
      simp only [KVStore.Get, hne, if_false]
      exact ih hs2.2 h

theorem Get_filter_key (q : Bytes → Bool) (s : KVStore) (key : Bytes) :
    KVStore.Get (s.filter (fun e => q e.1)) key = if q key = true then KVStore.Get s key else none := by
  induction s with
  | nil => simp [KVStore.Get]
  | cons e rest ih =>
    obtain ⟨k, v⟩ := e
    by_cases hq : q k = true
    · rw [List.filter_cons_of_pos (by simpa using hq)]
      by_cases h1 : k = key
      · subst h1
        simp [KVStore.Get, hq]
      · simp only [KVStore.Get, h1, if_false]
        exact ih
    · rw [List.filter_cons_of_neg (by simpa using hq)]
      by_cases h1 : k = key
      · subst h1
        rw [ih]
        simp [hq]
      · simp only [KVStore.Get, h1, if_false]
        exact ih

theorem Get_Iterator (s : KVStore) (p key : Bytes) :
    KVStore.Get (KVStorePrefixIterator s p) key
      = if hasPrefix p key = true then KVStore.Get s key else none :=
  Get_filter_key (fun x => hasPrefix p x) s key

theorem mem_Iterator {s : KVStore} {p : Bytes} {e : Bytes × Bytes} :
    e ∈ KVStorePrefixIterator s p ↔ e ∈ s ∧ hasPrefix p e.1 = true := by
  simp [KVStorePrefixIterator, List.mem_filter]

theorem Iterator_Set_other (s : KVStore) {p key : Bytes} (value : Bytes)
    (h : hasPrefix p key = false) :
    KVStorePrefixIterator (KVStore.Set s key value) p = KVStorePrefixIterator s p := by
  induction s with
  | nil => simp [KVStore.Set, KVStorePrefixIterator, h]
  | cons e rest ih =>
    obtain ⟨k, v⟩ := e
    by_cases h1 : key = k
    · subst h1
      simp [KVStore.Set, KVStorePrefixIterator, h]
    · by_cases h2 : bytesLt key k = true
      · simp [KVStore.Set, KVStorePrefixIterator, h1, h2, h]
      · simp only [KVStore.Set, h1, h2, if_false, Bool.false_eq_true]
        unfold KVStorePrefixIterator at ih ⊢
        simp only [List.filter_cons, ih]

theorem Iterator_Delete (s : KVStore) (p key : Bytes) :
    KVStorePrefixIterator (KVStore.Delete s key) p
      = (KVStorePrefixIterator s p).filter (fun e => decide (e.1 ≠ key)) := by
  simp [KVStorePrefixIterator, KVStore.Delete, List.filter_filter, Bool.and_comm]

/-! ## The loops -/

theorem GetAll_loop_some (k : Keeper) (l : List (Bytes × Bytes)) (acc r : List Incentive) :
    GetAllIncentives.loop k l acc = some r ↔
      ∃ incs, r = acc ++ incs ∧
        List.Forall₂ (fun e i => k.cdc.MustUnmarshal e.2 = some i) l incs := by
  induction l generalizing acc with
  | nil =>
    simp only [GetAllIncentives.loop, Option.some.injEq]
    constructor
    · intro h; exact ⟨[], by simp [h], List.Forall₂.nil⟩
    · rintro ⟨incs, h1, h2⟩
      cases h2
      simp [h1]
  | cons e rest ih =>
    cases hd : k.cdc.MustUnmarshal e.2 with
    | none =>
      simp only [GetAllIncentives.loop, hd]
      constructor
      · intro h; cases h
      · rintro ⟨incs, _, h2⟩
        cases h2 with
        | cons h3 _ => rw [hd] at h3; cases h3
    | some inc =>
      simp only [GetAllIncentives.loop, hd]
      rw [ih]
      constructor
      · rintro ⟨incs, h1, h2⟩
        exact ⟨inc :: incs, by simp [h1], List.Forall₂.cons hd h2⟩
      · rintro ⟨incs, h1, h2⟩
        cases h2 with
        | cons h3 h4 =>
          rw [hd] at h3
          cases h3
          exact ⟨_, by simp [h1], h4⟩

theorem GetAll_some (k : Keeper) (s : KVStore) (incs : List Incentive) :
    GetAllIncentives k s = some incs ↔
      List.Forall₂ (fun e i => k.cdc.MustUnmarshal e.2 = some i)
        (KVStorePrefixIterator s k.KeyPrefixIncentive) incs := by
  unfold GetAllIncentives
  rw [GetAll_loop_some]
  simp

/-! ## Allocation meters -/

theorem Meter_Set_same (k : Keeper) (hdec : k.DecRoundTrip) (s : KVStore) (am : DecCoin) :
    GetAllocationMeter k (SetAllocationMeter k s am) am.Denom = some (am, true) := by
  unfold GetAllocationMeter SetAllocationMeter
  rw [Get_Set_same]
  simp only [hdec am.Amount]

theorem Meter_Set_other (k : Keeper) (s : KVStore) (am : DecCoin) {denom : Bytes}
    (h : denom ≠ am.Denom) :
    GetAllocationMeter k (SetAllocationMeter k s am) denom = GetAllocationMeter k s denom := by
  unfold GetAllocationMeter SetAllocationMeter
  rw [Get_Set_other]
  intro h2
  exact h (List.append_cancel_left h2)

theorem Meter_Delete (k : Keeper) (hd : k.DisjointNamespaces) (s : KVStore) (a denom : Bytes) :
    GetAllocationMeter k (KVStore.Delete s (k.KeyPrefixIncentive ++ a)) denom
      = GetAllocationMeter k s denom := by
  unfold GetAllocationMeter
  rw [Get_Delete_other]
  exact fun h => hd a denom h.symm

theorem Meter_Denom {k : Keeper} {s : KVStore} {denom : Bytes} {am : DecCoin} {found : Bool}
    (h : GetAllocationMeter k s denom = some (am, found)) : am = ⟨denom, am.Amount⟩ := by
  unfold GetAllocationMeter at h
  split at h
  · cases h; rfl
  · split at h
    · cases h
    · cases h; rfl

theorem allocationSum_cons_same (al : DecCoin) (rest : List DecCoin) :
    allocationSum al.Denom (al :: rest) = al.Amount + allocationSum al.Denom rest := by
  simp [allocationSum]

theorem allocationSum_cons_other {denom : Bytes} (al : DecCoin) (rest : List DecCoin)
    (h : denom ≠ al.Denom) : allocationSum denom (al :: rest) = allocationSum denom rest := by
  have h2 : ¬ al.Denom = denom := fun h' => h h'.symm
  simp [allocationSum, h2]

theorem meterKey_outside_incentives (k : Keeper) (hd : k.DisjointNamespaces) (denom : Bytes) :
    hasPrefix k.KeyPrefixIncentive (k.KeyPrefixAllocationMeter ++ denom) = false := by
  cases h : hasPrefix k.KeyPrefixIncentive (k.KeyPrefixAllocationMeter ++ denom) with
  | false => rfl
  | true =>
    obtain ⟨r, hr⟩ := hasPrefix_elim h
    exact absurd hr.symm (hd r denom)

/-- What the subtraction loop does: it returns when the meters it reads
decode; every meter loses the sum of the allocations of its denomination; keys
outside the meter namespace keep their values; the order of the store is kept. -/
theorem Delete_loop_spec (k : Keeper) (hdec : k.DecRoundTrip) :
    ∀ (allocations : List DecCoin) (s : KVStore), MetersReadable k s allocations →
      ∃ s2, DeleteIncentiveAndUpdateAllocationMeters.loop k allocations s = some s2 ∧
        (∀ denom am found, GetAllocationMeter k s denom = some (am, found) →
          GetAllocationMeter k s2 denom
            = some (⟨denom, am.Amount - allocationSum denom allocations⟩,
                found || decide (denom ∈ allocations.map DecCoin.Denom))) ∧
        (∀ key, (∀ denom, key ≠ k.KeyPrefixAllocationMeter ++ denom) →
          KVStore.Get s2 key = KVStore.Get s key) ∧
        (∀ p, (∀ denom, hasPrefix p (k.KeyPrefixAllocationMeter ++ denom) = false) →
          KVStorePrefixIterator s2 p = KVStorePrefixIterator s p) ∧
        (KVStore.Ordered s → KVStore.Ordered s2) := by
  intro allocations
  induction allocations with
  | nil =>
    intro s _
    refine ⟨s, rfl, ?_, fun _ _ => rfl, fun _ _ => rfl, id⟩
    intro denom am found h
    have e := Meter_Denom h
    rw [h]
    simp only [allocationSum, List.filter_nil, List.map_nil, List.sum_nil, sub_zero,
      List.not_mem_nil, decide_False, Bool.or_false]
    rw [← e]
  | cons al rest ih =>
    intro s hm
    have h0 := hm al (List.mem_cons_self _ _)
    obtain ⟨⟨am0, f0⟩, hget⟩ := Option.isSome_iff_exists.mp h0
    have hm1 : MetersReadable k
        (SetAllocationMeter k s ⟨al.Denom, am0.Amount - al.Amount⟩) rest := by
      intro al2 hal2
      by_cases hden : al2.Denom = al.Denom
      · rw [hden]
        have := Meter_Set_same k hdec s ⟨al.Denom, am0.Amount - al.Amount⟩
        simp only at this
        rw [this]; rfl
      · rw [Meter_Set_other k s _ (by simpa using hden)]
        exact hm al2 (List.mem_cons_of_mem _ hal2)
    obtain ⟨s2, hrun, hmeter, hframe, hiter, hord⟩ := ih _ hm1
    refine ⟨s2, ?_, ?_, ?_, ?_, ?_⟩
    · simp only [DeleteIncentiveAndUpdateAllocationMeters.loop, hget]
      exact hrun
    · intro denom am found h
      by_cases hden : denom = al.Denom
      · subst hden
        rw [hget] at h
        cases h
        have h1 := Meter_Set_same k hdec s ⟨al.Denom, am0.Amount - al.Amount⟩
        simp only at h1
        rw [hmeter _ _ _ h1, allocationSum_cons_same]
        simp only [Bool.or_true, List.map_cons, List.mem_cons, true_or, decide_True,
          Option.some.injEq, Prod.mk.injEq, DecCoin.mk.injEq, true_and, and_true]
        exact ⟨Int.sub_sub _ _ _, rfl⟩
      · have h1 : GetAllocationMeter k
            (SetAllocationMeter k s ⟨al.Denom, am0.Amount - al.Amount⟩) denom = some (am, found) := by
          rw [Meter_Set_other k s _ (by simpa using hden)]
          exact h
        rw [hmeter _ _ _ h1, allocationSum_cons_other al rest hden]
        simp [hden]
    · intro key hkey
      rw [hframe key hkey]
      unfold SetAllocationMeter
      exact Get_Set_other s _ (hkey _)
    · intro p hp
      rw [hiter p hp]
      unfold SetAllocationMeter
      exact Iterator_Set_other s _ (hp _)
    · intro hs
      exact hord (Ordered_Set hs _ _)

/-- What `DeleteIncentiveAndUpdateAllocationMeters` does, for a keeper whose
namespaces are disjoint and whose amounts decode, on a store whose meters for
the incentive's denominations can be read. -/
theorem Delete_spec (k : Keeper) (hd : k.DisjointNamespaces) (hdec : k.DecRoundTrip)
    (s : KVStore) (incentive : Incentive) (hm : MetersReadable k s incentive.Allocations) :
    ∃ s2, DeleteIncentiveAndUpdateAllocationMeters k s incentive = some s2 ∧
      (∀ denom am found, GetAllocationMeter k s denom = some (am, found) →
        GetAllocationMeter k s2 denom
          = some (⟨denom, am.Amount - allocationSum denom incentive.Allocations⟩,
              found || decide (denom ∈ incentive.Allocations.map DecCoin.Denom))) ∧
      (∀ contract, KVStore.Get s2 (k.KeyPrefixIncentive ++ contract)
          = KVStore.Get (KVStore.Delete s (k.KeyPrefixIncentive ++ k.HexToAddress incentive.Contract))
              (k.KeyPrefixIncentive ++ contract)) ∧
      KVStorePrefixIterator s2 k.KeyPrefixIncentive
        = (KVStorePrefixIterator s k.KeyPrefixIncentive).filter
            (fun e => decide (e.1 ≠ k.KeyPrefixIncentive ++ k.HexToAddress incentive.Contract)) ∧
      (KVStore.Ordered s → KVStore.Ordered s2) := by
  have hm1 : MetersReadable k
      (KVStore.Delete s (k.KeyPrefixIncentive ++ k.HexToAddress incentive.Contract))
      incentive.Allocations := by
    intro al hal
    rw [Meter_Delete k hd]
    exact hm al hal
  obtain ⟨s2, hrun, hmeter, hframe, hiter, hord⟩ := Delete_loop_spec k hdec _ _ hm1
  refine ⟨s2, hrun, ?_, ?_, ?_, ?_⟩
  · intro denom am found h
    exact hmeter denom am found (by rw [Meter_Delete k hd]; exact h)
  · intro contract
    exact hframe _ (fun denom => hd contract denom)
  · rw [hiter _ (meterKey_outside_incentives k hd), Iterator_Delete]
  · intro hs
    exact hord (Ordered_Delete hs _)

/-! ## The sample keeper is lawful -/

theorem sample_DecRoundTrip : sampleKeeper.DecRoundTrip := by
  intro d
  cases d <;> rfl

theorem sample_NonEmptyEncoding : sampleKeeper.NonEmptyEncoding := by
  intro i h
  simp [sampleKeeper, sampleCodec, sampleMarshal] at h

theorem sample_DisjointNamespaces : sampleKeeper.DisjointNamespaces := by
  intro a d h
  simp [sampleKeeper] at h

theorem sampleUnmarshalAllocations_marshal (cs : List DecCoin) :
    ∀ fuel, cs.length < fuel →
      sampleUnmarshalAllocations fuel (sampleMarshalAllocations cs) = some cs := by
  induction cs with
  | nil =>
    intro fuel h
    cases fuel with
    | zero => omega
    | succ n => rfl
  | cons c cs ih =>
    intro fuel h
    cases fuel with
    | zero => omega
    | succ n =>
      have hlen : cs.length < n := by simpa using h
      obtain ⟨denom, amount⟩ := c
      cases amount with
      | ofNat m =>
        simp [sampleMarshalAllocations, sampleUnmarshalAllocations, sampleMarshalDec,
          sampleUnmarshalDec, ih n hlen]
      | negSucc m =>
        simp [sampleMarshalAllocations, sampleUnmarshalAllocations, sampleMarshalDec,
          sampleUnmarshalDec, ih n hlen]

theorem sampleMarshalAllocations_length (cs : List DecCoin) :
    cs.length ≤ (sampleMarshalAllocations cs).length := by
  induction cs with
  | nil => simp [sampleMarshalAllocations]
  | cons c cs ih =>
    simp only [sampleMarshalAllocations, List.length_cons, List.length_append]
    omega

theorem sample_RoundTrip : sampleKeeper.RoundTrip := by
  intro i
  obtain ⟨contract, allocations, gas⟩ := i
  have h := sampleUnmarshalAllocations_marshal allocations
    ((sampleMarshalAllocations allocations).length + 1)
    (Nat.lt_succ_of_le (sampleMarshalAllocations_length allocations))
  simp [sampleKeeper, sampleCodec, sampleMarshal, sampleUnmarshal, h]

/-! ## Deletion and the meters -/

theorem allocationSum_of_once (al : DecCoin) :
    ∀ allocations : List DecCoin, al ∈ allocations →
      (allocations.map DecCoin.Denom).count al.Denom = 1 →
      allocationSum al.Denom allocations = al.Amount := by
  intro allocations
  induction allocations with
  | nil => intro h; simp at h
  | cons x xs ih =>
    intro hmem hcount
    by_cases hx : x.Denom = al.Denom
    · have hzero : (xs.map DecCoin.Denom).count al.Denom = 0 := by
        simp only [List.map_cons, hx, List.count_cons_self] at hcount
        omega
      have hnot : al.Denom ∉ xs.map DecCoin.Denom := List.count_eq_zero.mp hzero
      have hal : al = x := by
        rcases List.mem_cons.mp hmem with h | h
        · exact h
        · exact absurd (List.mem_map_of_mem DecCoin.Denom h) hnot
      subst hal
      rw [allocationSum_cons_same]
      have : allocationSum al.Denom xs = 0 := by
        unfold allocationSum
        have : xs.filter (fun a => decide (a.Denom = al.Denom)) = [] := by
          apply List.filter_eq_nil_iff.mpr
          intro a ha
          simp only [decide_eq_true_eq]
          intro h
          exact hnot (h ▸ List.mem_map_of_mem DecCoin.Denom ha)
        rw [this]; rfl
      rw [this]
      exact Int.add_zero _
    · have hne : al.Denom ≠ x.Denom := fun h => hx h.symm
      have hmem2 : al ∈ xs := by
        rcases List.mem_cons.mp hmem with h | h
        · exact absurd (by rw [h]) hx
        · exact h
      rw [allocationSum_cons_other x xs hne]
      apply ih hmem2
      simpa [List.count_cons, hx] using hcount

/-- Claim C1 as stated fails when the allocation list names a denomination
twice: with the meter at `uatom = 15` and the allocations `uatom 10` and
`uatom 5`, the meter stands at 0 after the deletion, not at `15 - 10`. -/
theorem C1_counterexample_repeated_denom :
    (⟨str "uatom", 10⟩ : DecCoin) ∈ repeatedIncentive.Allocations ∧
    GetAllocationMeter sampleKeeper repeatedState (str "uatom")
      = some (⟨str "uatom", 15⟩, true) ∧
    (DeleteIncentiveAndUpdateAllocationMeters sampleKeeper repeatedState repeatedIncentive).bind
        (fun s2 => GetAllocationMeter sampleKeeper s2 (str "uatom"))
      = some (⟨str "uatom", 0⟩, true) ∧
    (15 : Dec) - 10 ≠ 0 := by
  decide

/-- Claim C1, amended: for an allocation `al` of the incentive whose
denomination occurs once in the allocation list, the deletion returns and the
meter of that denomination afterwards is its amount before (zero when the
meter was absent) minus the amount of `al`. -/
theorem C1_meter_decreases_by_allocation (k : Keeper) (hd : k.DisjointNamespaces)
    (hdec : k.DecRoundTrip) (s : KVStore) (incentive : Incentive) (al : DecCoin)
    (hal : al ∈ incentive.Allocations)
    (honce : (incentive.Allocations.map DecCoin.Denom).count al.Denom = 1)
    (hm : MetersReadable k s incentive.Allocations) :
    ∃ s2 before found,
      DeleteIncentiveAndUpdateAllocationMeters k s incentive = some s2 ∧
      GetAllocationMeter k s al.Denom = some (before, found) ∧
      GetAllocationMeter k s2 al.Denom = some (⟨al.Denom, before.Amount - al.Amount⟩, true) := by
  obtain ⟨s2, hrun, hmeter, _, _, _⟩ := Delete_spec k hd hdec s incentive hm
  obtain ⟨⟨before, found⟩, hget⟩ := Option.isSome_iff_exists.mp (hm al hal)
  refine ⟨s2, before, found, hrun, hget, ?_⟩
  rw [hmeter _ _ _ hget, allocationSum_of_once al _ hal honce]
  have : al.Denom ∈ incentive.Allocations.map DecCoin.Denom := List.mem_map_of_mem _ hal
  simp [this]

/-- The example scenario: deleting the incentive takes 10 off the meter of
`uatom`. -/
theorem C1_witness :
    ∃ s2 before found,
      DeleteIncentiveAndUpdateAllocationMeters sampleKeeper exampleState exampleIncentive = some s2 ∧
      GetAllocationMeter sampleKeeper exampleState (str "uatom") = some (before, found) ∧
      GetAllocationMeter sampleKeeper s2 (str "uatom")
        = some (⟨str "uatom", before.Amount - 10⟩, true) :=
  C1_meter_decreases_by_allocation sampleKeeper sample_DisjointNamespaces sample_DecRoundTrip
    exampleState exampleIncentive ⟨str "uatom", 10⟩ (by decide) (by decide)
    (by unfold MetersReadable; decide)

theorem allocationTotal_cons (denom : Bytes) (i : Incentive) (incentives : List Incentive) :
    allocationTotal denom (i :: incentives)
      = allocationSum denom i.Allocations + allocationTotal denom incentives := by
  simp [allocationTotal]

/-- Removing the one entry under a key from an ordered list of entries that
decode removes the allocations of the record stored there from every total. -/
theorem decode_filter_total (k : Keeper) (key bz : Bytes) (incentive : Incentive)
    (hdecode : k.cdc.MustUnmarshal bz = some incentive) :
    ∀ (l : List (Bytes × Bytes)) (incentives : List Incentive),
      KVStore.Ordered l →
      List.Forall₂ (fun e i => k.cdc.MustUnmarshal e.2 = some i) l incentives →
      (key, bz) ∈ l →
      ∃ rest, List.Forall₂ (fun e i => k.cdc.MustUnmarshal e.2 = some i)
          (l.filter (fun e => decide (e.1 ≠ key))) rest ∧
        ∀ denom, allocationTotal denom rest
          = allocationTotal denom incentives - allocationSum denom incentive.Allocations := by
  intro l incentives hord hall
  induction hall with
  | nil => intro h; simp at h
  | @cons e i l2 incs2 hei hrest ih =>
    intro hmem
    have hord2 := List.pairwise_cons.mp hord
    by_cases hkey : e.1 = key
    · have hnot : ∀ x ∈ l2, x.1 ≠ key := by
        intro x hx
        have := hord2.1 x hx
        rw [hkey] at this
        exact fun h => bytesLt_ne this h.symm
      have he : e = (key, bz) := by
        rcases List.mem_cons.mp hmem with h | h
        · exact h.symm
        · exact absurd rfl (hnot _ h)
      have hi : i = incentive := by
        rw [he] at hei
        simp only at hei
        rw [hdecode] at hei
        exact (Option.some.inj hei).symm
      refine ⟨incs2, ?_, ?_⟩
      · rw [List.filter_cons_of_neg (by simp [hkey])]
        have : l2.filter (fun e => decide (e.1 ≠ key)) = l2 := by
          apply List.filter_eq_self.mpr
          intro x hx
          simpa using hnot x hx
        rw [this]
        exact hrest
      · intro denom
        rw [allocationTotal_cons, hi]
        show _ = allocationSum denom incentive.Allocations + allocationTotal denom incs2
          - allocationSum denom incentive.Allocations
        exact (add_sub_cancel_left _ _).symm
    · have hmem2 : (key, bz) ∈ l2 := by
        rcases List.mem_cons.mp hmem with h | h
        · exact absurd (by rw [← h]) hkey
        · exact h
      obtain ⟨rest, hall2, htot⟩ := ih hord2.2 hmem2
      refine ⟨i :: rest, ?_, ?_⟩
      · rw [List.filter_cons_of_pos (by simp [hkey])]
        exact List.Forall₂.cons hei hall2
      · intro denom
        rw [allocationTotal_cons, allocationTotal_cons, htot denom]
        exact (Int.add_sub_assoc _ _ _).symm

theorem GetIncentive_found {k : Keeper} {s : KVStore} {contract : Bytes} {incentive : Incentive}
    (h : GetIncentive k s contract = some (incentive, true)) :
    ∃ bz, KVStore.Get s (k.KeyPrefixIncentive ++ contract) = some bz ∧
      k.cdc.MustUnmarshal bz = some incentive := by
  unfold GetIncentive at h
  split at h
  · cases h
  · rename_i bz hbz
    split at h
    · cases h
    · split at h
      · cases h
      · rename_i inc hinc
        cases h
        exact ⟨bz, hbz, hinc⟩

/-- Claim C2: the deletion of an incentive that is the value stored under its
contract key returns and preserves the reconciliation invariant: in the state
after it, for every denomination, the meter amount is again the sum of the
allocations of the registered incentives. -/
theorem C2_deletion_preserves_reconciliation (k : Keeper) (hd : k.DisjointNamespaces)
    (hdec : k.DecRoundTrip) (s : KVStore) (hs : KVStore.Ordered s) (incentive : Incentive)
    (hrec : Reconciled k s)
    (hstored : GetIncentive k s (k.HexToAddress incentive.Contract) = some (incentive, true)) :
    ∃ s2, DeleteIncentiveAndUpdateAllocationMeters k s incentive = some s2 ∧ Reconciled k s2 := by
  obtain ⟨incentives, hall, hmeters⟩ := hrec
  have hm : MetersReadable k s incentive.Allocations := by
    intro al _
    obtain ⟨found, h⟩ := hmeters al.Denom
    rw [h]; rfl
  obtain ⟨s2, hrun, hmeter, _, hiter, _⟩ := Delete_spec k hd hdec s incentive hm
  obtain ⟨bz, hbz, hdecode⟩ := GetIncentive_found hstored
  have hmem : (k.KeyPrefixIncentive ++ k.HexToAddress incentive.Contract, bz)
      ∈ KVStorePrefixIterator s k.KeyPrefixIncentive :=
    mem_Iterator.mpr ⟨mem_of_Get hbz, hasPrefix_append _ _⟩
  obtain ⟨rest, hall2, htot⟩ := decode_filter_total k _ bz incentive hdecode _ incentives
    (Ordered_Iterator hs _) ((GetAll_some k s incentives).mp hall) hmem
  refine ⟨s2, hrun, rest, ?_, ?_⟩
  · rw [GetAll_some, hiter]
    exact hall2
  · intro denom
    obtain ⟨found, h⟩ := hmeters denom
    refine ⟨found || decide (denom ∈ List.map DecCoin.Denom incentive.Allocations), ?_⟩
    rw [hmeter denom _ found h, htot denom]

/-- Claim C3: the deletion returns, and in the state after it `GetIncentive`
for the incentive's contract key returns the zero value with `found = false`,
no entry that `GetAllIncentives` visits is stored under that key, and what
`GetAllIncentives` returns is decoded from the other entries of the state
before. -/
theorem C3_deleted_incentive_not_retrievable (k : Keeper) (hd : k.DisjointNamespaces)
    (hdec : k.DecRoundTrip) (s : KVStore) (incentive : Incentive)
    (hm : MetersReadable k s incentive.Allocations) :
    ∃ s2, DeleteIncentiveAndUpdateAllocationMeters k s incentive = some s2 ∧
      GetIncentive k s2 (k.HexToAddress incentive.Contract) = some (Incentive.zero, false) ∧
      (∀ e ∈ KVStorePrefixIterator s2 k.KeyPrefixIncentive,
        e.1 ≠ k.KeyPrefixIncentive ++ k.HexToAddress incentive.Contract) ∧
      GetAllIncentives k s2
        = GetAllIncentives.loop k
            ((KVStorePrefixIterator s k.KeyPrefixIncentive).filter
              (fun e => decide (e.1 ≠ k.KeyPrefixIncentive ++ k.HexToAddress incentive.Contract)))
            [] := by
  obtain ⟨s2, hrun, _, hframe, hiter, _⟩ := Delete_spec k hd hdec s incentive hm
  refine ⟨s2, hrun, ?_, ?_, ?_⟩
  · unfold GetIncentive
    rw [hframe, Get_Delete_same]
  · intro e he
    rw [hiter] at he
    simpa using (List.mem_filter.mp he).2
  · unfold GetAllIncentives
    rw [hiter]

/-- The example scenario: after the deletion the incentive is not found. -/
theorem C3_witness :
    ∃ s2, DeleteIncentiveAndUpdateAllocationMeters sampleKeeper exampleState exampleIncentive
        = some s2 ∧
      GetIncentive sampleKeeper s2 (sampleKeeper.HexToAddress exampleIncentive.Contract)
        = some (Incentive.zero, false) ∧
      (∀ e ∈ KVStorePrefixIterator s2 sampleKeeper.KeyPrefixIncentive,
        e.1 ≠ sampleKeeper.KeyPrefixIncentive
          ++ sampleKeeper.HexToAddress exampleIncentive.Contract) ∧
      GetAllIncentives sampleKeeper s2
        = GetAllIncentives.loop sampleKeeper
            ((KVStorePrefixIterator exampleState sampleKeeper.KeyPrefixIncentive).filter
              (fun e => decide (e.1 ≠ sampleKeeper.KeyPrefixIncentive
                ++ sampleKeeper.HexToAddress exampleIncentive.Contract)))
            [] :=
  C3_deleted_incentive_not_retrievable sampleKeeper sample_DisjointNamespaces
    sample_DecRoundTrip exampleState exampleIncentive (by unfold MetersReadable; decide)

theorem exampleState_Ordered : KVStore.Ordered exampleState := by
  unfold KVStore.Ordered
  decide

theorem exampleState_Reconciled : Reconciled sampleKeeper exampleState := by
  refine ⟨[exampleIncentive], by decide, ?_⟩
  intro denom
  have e1 : str "uatom" = [117, 97, 116, 111, 109] := by decide
  have e2 : str "uosmo" = [117, 111, 115, 109, 111] := by decide
  by_cases h1 : denom = str "uatom"
  · subst h1; exact ⟨true, by decide⟩
  · by_cases h2 : denom = str "uosmo"
    · subst h2; exact ⟨true, by decide⟩
    · refine ⟨false, ?_⟩
      have hst : exampleState
          = [([1, 0, 0, 0, 0, 0, 0, 0, 0, 0, 0, 0, 0, 0, 0, 0, 0, 0, 0, 0, 170],
              sampleMarshal exampleIncentive),
             (3 :: str "uatom", [0, 10]), (3 :: str "uosmo", [0, 5])] := by decide
      have h3 : ¬ str "uatom" = denom := fun h => h1 h.symm
      have h4 : ¬ str "uosmo" = denom := fun h => h2 h.symm
      have t1 : allocationTotal denom [exampleIncentive] = 0 := by
        simp [allocationTotal, allocationSum, exampleIncentive, h3, h4]
      rw [t1, hst]
      simp [GetAllocationMeter, KVStore.Get, sampleKeeper, h3, h4]

/-- The example scenario is reconciled, and stays so after the deletion. -/
theorem C2_witness :
    ∃ s2, DeleteIncentiveAndUpdateAllocationMeters sampleKeeper exampleState exampleIncentive
        = some s2 ∧ Reconciled sampleKeeper s2 :=
  C2_deletion_preserves_reconciliation sampleKeeper sample_DisjointNamespaces
    sample_DecRoundTrip exampleState exampleState_Ordered exampleIncentive
    exampleState_Reconciled (by decide)

/-! ## Registration -/

theorem IsRegistered_iff (k : Keeper) (s : KVStore) (contract : Bytes) :
    IsIncentiveRegistered k s contract = true ↔
      ∃ bz, KVStore.Get s (k.KeyPrefixIncentive ++ contract) = some bz := by
  unfold IsIncentiveRegistered KVStore.Has
  exact Option.isSome_iff_exists

/-- Claim C8: `IsIncentiveRegistered` for the contract key of an incentive is
true in the state right after `SetIncentive`, and the deletion of the
incentive returns a state in which it is false. -/
theorem C8_registered_after_set_not_after_delete (k : Keeper) (hd : k.DisjointNamespaces)
    (hdec : k.DecRoundTrip) (s : KVStore) (incentive : Incentive)
    (hm : MetersReadable k s incentive.Allocations) :
    IsIncentiveRegistered k (SetIncentive k s incentive) (k.HexToAddress incentive.Contract)
      = true ∧
    ∃ s2, DeleteIncentiveAndUpdateAllocationMeters k s incentive = some s2 ∧
      IsIncentiveRegistered k s2 (k.HexToAddress incentive.Contract) = false := by
  constructor
  · unfold IsIncentiveRegistered KVStore.Has SetIncentive
    rw [Get_Set_same]
    rfl
  · obtain ⟨s2, hrun, _, hframe, _, _⟩ := Delete_spec k hd hdec s incentive hm
    refine ⟨s2, hrun, ?_⟩
    unfold IsIncentiveRegistered KVStore.Has
    rw [hframe, Get_Delete_same]
    rfl

/-- The example scenario: registered after the upsert, not after the deletion. -/
theorem C8_witness :
    IsIncentiveRegistered sampleKeeper (SetIncentive sampleKeeper exampleState exampleIncentive)
      (sampleKeeper.HexToAddress exampleIncentive.Contract) = true ∧
    ∃ s2, DeleteIncentiveAndUpdateAllocationMeters sampleKeeper exampleState exampleIncentive
        = some s2 ∧
      IsIncentiveRegistered sampleKeeper s2
        (sampleKeeper.HexToAddress exampleIncentive.Contract) = false :=
  C8_registered_after_set_not_after_delete sampleKeeper sample_DisjointNamespaces
    sample_DecRoundTrip exampleState exampleIncentive (by unfold MetersReadable; decide)

/-! ## Point lookup and upsert -/

theorem GetIncentive_of_Get {k : Keeper} {s : KVStore} {contract : Bytes} {incentive : Incentive}
    (henc : k.Encodes incentive)
    (h : KVStore.Get s (k.KeyPrefixIncentive ++ contract) = some (k.cdc.MustMarshal incentive)) :
    GetIncentive k s contract = some (incentive, true) := by
  unfold GetIncentive
  rw [h]
  have hlen : ¬ (k.cdc.MustMarshal incentive).length = 0 := by
    intro h0
    exact henc.2 (List.length_eq_zero.mp h0)
  simp only [hlen, if_false, henc.1]

theorem GetIncentive_Set_same (k : Keeper) (s : KVStore) (incentive : Incentive)
    (henc : k.Encodes incentive) :
    GetIncentive k (SetIncentive k s incentive) (k.HexToAddress incentive.Contract)
      = some (incentive, true) := by
  apply GetIncentive_of_Get henc
  unfold SetIncentive
  exact Get_Set_same _ _ _

theorem GetIncentive_Set_other (k : Keeper) (s : KVStore) (incentive : Incentive)
    {contract : Bytes} (h : k.HexToAddress incentive.Contract ≠ contract) :
    GetIncentive k (SetIncentive k s incentive) contract = GetIncentive k s contract := by
  unfold GetIncentive SetIncentive
  rw [Get_Set_other]
  intro h2
  exact h (List.append_cancel_left h2).symm

/-- Claim C10: for a contract key with no record stored under it,
`GetIncentive` returns the zero value with `found = false` and does not panic;
for a contract key under which the encoding of a record is stored, it returns
that record with `found = true`. -/
theorem C10_GetIncentive_found_flag (k : Keeper) (s : KVStore) (contract : Bytes) :
    (IsIncentiveRegistered k s contract = false →
      GetIncentive k s contract = some (Incentive.zero, false)) ∧
    (∀ incentive, k.Encodes incentive →
      KVStore.Get s (k.KeyPrefixIncentive ++ contract) = some (k.cdc.MustMarshal incentive) →
      GetIncentive k s contract = some (incentive, true)) := by
  constructor
  · intro h
    unfold IsIncentiveRegistered KVStore.Has at h
    unfold GetIncentive
    cases hget : KVStore.Get s (k.KeyPrefixIncentive ++ contract) with
    | none => rfl
    | some bz => rw [hget] at h; cases h
  · intro incentive henc h
    exact GetIncentive_of_Get henc h

theorem sample_Encodes (i : Incentive) : sampleKeeper.Encodes i :=
  ⟨sample_RoundTrip i, sample_NonEmptyEncoding i⟩

/-- The example scenario: nothing is stored for `0xBB`, the example incentive
is stored for `0xAA`. -/
theorem C10_witness :
    GetIncentive sampleKeeper exampleState (sampleKeeper.HexToAddress (str "0xBB"))
      = some (Incentive.zero, false) ∧
    GetIncentive sampleKeeper exampleState (sampleKeeper.HexToAddress (str "0xAA"))
      = some (exampleIncentive, true) :=
  ⟨(C10_GetIncentive_found_flag sampleKeeper exampleState _).1 (by decide),
   (C10_GetIncentive_found_flag sampleKeeper exampleState _).2 exampleIncentive
     (sample_Encodes _) (by decide)⟩

/-- Claim C9: after `SetIncentiveTotalGas` with `g1` and then with `g2`, what
is stored under the incentive's contract key is the encoding of the incentive
with `TotalGas = g2`, whatever `g1` and `g2` are, and `GetIncentive` returns
that record when the codec encodes it faithfully. -/
theorem C9_total_gas_last_write_wins (k : Keeper) (s : KVStore) (incentive : Incentive)
    (g1 g2 : Nat) :
    KVStore.Get (SetIncentiveTotalGas k (SetIncentiveTotalGas k s incentive g1) incentive g2)
        (k.KeyPrefixIncentive ++ k.HexToAddress incentive.Contract)
      = some (k.cdc.MustMarshal { incentive with TotalGas := g2 }) ∧
    (k.Encodes { incentive with TotalGas := g2 } →
      GetIncentive k (SetIncentiveTotalGas k (SetIncentiveTotalGas k s incentive g1) incentive g2)
          (k.HexToAddress incentive.Contract)
        = some ({ incentive with TotalGas := g2 }, true)) := by
  constructor
  · unfold SetIncentiveTotalGas SetIncentive
    exact Get_Set_same _ _ _
  · intro henc
    exact GetIncentive_Set_same k _ { incentive with TotalGas := g2 } henc

/-- The example scenario with the gas values 100 and then 50: the record read
back has `TotalGas = 50`. -/
theorem C9_witness :
    GetIncentive sampleKeeper
        (SetIncentiveTotalGas sampleKeeper
          (SetIncentiveTotalGas sampleKeeper exampleState exampleIncentive 100)
          exampleIncentive 50)
        (sampleKeeper.HexToAddress exampleIncentive.Contract)
      = some ({ exampleIncentive with TotalGas := 50 }, true) :=
  (C9_total_gas_last_write_wins sampleKeeper exampleState exampleIncentive 100 50).2
    (sample_Encodes _)

/-- Claim C4: after any sequence of `SetIncentive` calls, with a codec that
encodes the incentives of the sequence faithfully, `GetIncentive` for a
contract address returns the last incentive of the sequence whose contract
parses to that address, with `found = true`, and what it returned before the
sequence when no incentive of the sequence does. -/
theorem C4_get_returns_last_set (k : Keeper) (s : KVStore) (l : List Incentive)
    (contract : Bytes) (henc : ∀ i ∈ l, k.Encodes i) :
    GetIncentive k (l.foldl (SetIncentive k) s) contract
      = match lastFor k contract l with
        | some incentive => some (incentive, true)
        | none => GetIncentive k s contract := by
  induction l using List.reverseRecOn with
  | nil => rfl
  | append_singleton l x ih =>
    have ih2 := ih (fun i hi => henc i (List.mem_append_left _ hi))
    have hx := henc x (List.mem_append_right _ (List.mem_singleton_self x))
    rw [List.foldl_append]
    simp only [List.foldl_cons, List.foldl_nil]
    unfold lastFor at ih2 ⊢
    rw [List.reverse_append]
    simp only [List.reverse_cons, List.reverse_nil, List.nil_append, List.singleton_append]
    by_cases hc : k.HexToAddress x.Contract = contract
    · rw [List.find?_cons_of_pos _ (by simpa using hc), ← hc]
      exact GetIncentive_Set_same k _ x hx
    · rw [List.find?_cons_of_neg _ (by simpa using hc), GetIncentive_Set_other k _ x hc]
      exact ih2

/-- Three upserts for the same address, written `0xAA` and read as `0xaa`: the
last one is returned. -/
theorem C4_witness :
    GetIncentive sampleKeeper
        ([exampleIncentive, { exampleIncentive with TotalGas := 7 }, repeatedIncentive].foldl
          (SetIncentive sampleKeeper) [])
        (sampleKeeper.HexToAddress (str "0xaa"))
      = some (repeatedIncentive, true) :=
  (C4_get_returns_last_set sampleKeeper [] _ _ (fun i _ => sample_Encodes i)).trans
    (by decide)

/-! ## Reachable states -/

/-- The subtraction loop, whenever it returns, leaves every namespace other
than the one of the meters as it was, and keeps the order of the store. -/
theorem Delete_loop_frame (k : Keeper) :
    ∀ (allocations : List DecCoin) (s s2 : KVStore),
      DeleteIncentiveAndUpdateAllocationMeters.loop k allocations s = some s2 →
      (∀ p, (∀ denom, hasPrefix p (k.KeyPrefixAllocationMeter ++ denom) = false) →
        KVStorePrefixIterator s2 p = KVStorePrefixIterator s p) ∧
      (KVStore.Ordered s → KVStore.Ordered s2) := by
  intro allocations
  induction allocations with
  | nil =>
    intro s s2 h
    cases h
    exact ⟨fun _ _ => rfl, id⟩
  | cons al rest ih =>
    intro s s2 h
    simp only [DeleteIncentiveAndUpdateAllocationMeters.loop] at h
    split at h
    · cases h
    · obtain ⟨hiter, hord⟩ := ih _ _ h
      constructor
      · intro p hp
        rw [hiter p hp]
        unfold SetAllocationMeter
        exact Iterator_Set_other s _ (hp _)
      · intro hs
        exact hord (Ordered_Set hs _ _)

theorem Reachable_Ordered_KeyConsistent (k : Keeper) (hd : k.DisjointNamespaces)
    (hrt : k.RoundTrip) {s : KVStore} (hr : Reachable k s) :
    KVStore.Ordered s ∧ KeyConsistent k s := by
  have hset : ∀ (s : KVStore) (incentive : Incentive),
      KVStore.Ordered s ∧ KeyConsistent k s →
      KVStore.Ordered (SetIncentive k s incentive) ∧ KeyConsistent k (SetIncentive k s incentive) := by
    intro s incentive ⟨hs, hk⟩
    refine ⟨Ordered_Set hs _ _, ?_⟩
    intro e he
    obtain ⟨he1, he2⟩ := mem_Iterator.mp he
    rcases mem_Set he1 with h | h
    · exact ⟨incentive, by rw [h]; exact hrt incentive, by rw [h]⟩
    · exact hk e (mem_Iterator.mpr ⟨h, he2⟩)
  induction hr with
  | empty =>
    exact ⟨Ordered_nil, fun e he => by simp [KVStorePrefixIterator] at he⟩
  | setIncentive s incentive _ ih => exact hset s incentive ih
  | setTotalGas s incentive gas _ ih => exact hset s _ ih
  | delete s incentive s2 _ hrun ih =>
    obtain ⟨hs, hk⟩ := ih
    unfold DeleteIncentiveAndUpdateAllocationMeters at hrun
    obtain ⟨hiter, hord⟩ := Delete_loop_frame k _ _ _ hrun
    refine ⟨hord (Ordered_Delete hs _), ?_⟩
    intro e he
    rw [hiter _ (meterKey_outside_incentives k hd), Iterator_Delete] at he
    exact hk e (List.mem_filter.mp he).1

/-- In an ordered, key-consistent state `GetAllIncentives` returns, and the
keys of the entries it visits are the contract keys of the records it
returns, in the same order. -/
theorem GetAll_of_KeyConsistent (k : Keeper) (s : KVStore) (hk : KeyConsistent k s) :
    ∃ incentives, GetAllIncentives k s = some incentives ∧
      (KVStorePrefixIterator s k.KeyPrefixIncentive).map Prod.fst
        = (contractKeys k incentives).map (fun a => k.KeyPrefixIncentive ++ a) := by
  unfold KeyConsistent at hk
  suffices h : ∀ l : List (Bytes × Bytes),
      (∀ e ∈ l, ∃ incentive, k.cdc.MustUnmarshal e.2 = some incentive ∧
        e.1 = k.KeyPrefixIncentive ++ k.HexToAddress incentive.Contract) →
      ∃ incentives, List.Forall₂ (fun e i => k.cdc.MustUnmarshal e.2 = some i) l incentives ∧
        l.map Prod.fst = (contractKeys k incentives).map (fun a => k.KeyPrefixIncentive ++ a) by
    obtain ⟨incentives, h1, h2⟩ := h _ hk
    exact ⟨incentives, (GetAll_some k s incentives).mpr h1, h2⟩
  intro l
  induction l with
  | nil => intro _; exact ⟨[], List.Forall₂.nil, rfl⟩
  | cons e rest ih =>
    intro h
    obtain ⟨incentive, h1, h2⟩ := h e (List.mem_cons_self _ _)
    obtain ⟨incentives, h3, h4⟩ := ih (fun x hx => h x (List.mem_cons_of_mem _ hx))
    refine ⟨incentive :: incentives, List.Forall₂.cons h1 h3, ?_⟩
    simp only [contractKeys, List.map_cons, List.map_map] at h4 ⊢
    rw [h2, h4]

theorem contractKeys_Pairwise (k : Keeper) (s : KVStore) (hs : KVStore.Ordered s)
    (incentives : List Incentive)
    (h : (KVStorePrefixIterator s k.KeyPrefixIncentive).map Prod.fst
        = (contractKeys k incentives).map (fun a => k.KeyPrefixIncentive ++ a)) :
    (contractKeys k incentives).Pairwise (fun a b => bytesLt a b = true) := by
  have h1 : ((KVStorePrefixIterator s k.KeyPrefixIncentive).map Prod.fst).Pairwise
      (fun a b => bytesLt a b = true) :=
    List.pairwise_map.mpr (Ordered_Iterator hs _)
  rw [h] at h1
  have h2 := List.pairwise_map.mp h1
  simpa only [bytesLt_append_left] using h2

theorem IsRegistered_iff_mem (k : Keeper) (s : KVStore) (hs : KVStore.Ordered s)
    (contract : Bytes) :
    IsIncentiveRegistered k s contract = true ↔
      (k.KeyPrefixIncentive ++ contract)
        ∈ (KVStorePrefixIterator s k.KeyPrefixIncentive).map Prod.fst := by
  rw [IsRegistered_iff]
  constructor
  · rintro ⟨bz, h⟩
    exact List.mem_map.mpr ⟨(_, bz), mem_Iterator.mpr ⟨mem_of_Get h, hasPrefix_append _ _⟩, rfl⟩
  · intro h
    obtain ⟨⟨key, bz⟩, he, hkey⟩ := List.mem_map.mp h
    simp only at hkey
    subst hkey
    exact ⟨bz, Get_of_mem hs (mem_Iterator.mp he).1⟩

/-- Claim C5: in every state reachable from the empty store by `SetIncentive`,
`SetIncentiveTotalGas` and `DeleteIncentiveAndUpdateAllocationMeters`,
`GetAllIncentives` returns a list in which no two records have the same
contract key, and the contract keys of the list are exactly the registered
contracts. -/
theorem C5_no_duplicate_contract_keys (k : Keeper) (hd : k.DisjointNamespaces)
    (hrt : k.RoundTrip) (s : KVStore) (hr : Reachable k s) :
    ∃ incentives, GetAllIncentives k s = some incentives ∧
      (contractKeys k incentives).Nodup ∧
      ∀ contract, IsIncentiveRegistered k s contract = true ↔
        contract ∈ contractKeys k incentives := by
  obtain ⟨hs, hk⟩ := Reachable_Ordered_KeyConsistent k hd hrt hr
  obtain ⟨incentives, hall, hkeys⟩ := GetAll_of_KeyConsistent k s hk
  refine ⟨incentives, hall, ?_, ?_⟩
  · have hp := contractKeys_Pairwise k s hs incentives hkeys
    exact hp.imp (fun h => bytesLt_ne h)
  · intro contract
    rw [IsRegistered_iff_mem k s hs, hkeys]
    constructor
    · intro h
      obtain ⟨a, ha, heq⟩ := List.mem_map.mp h
      rw [← List.append_cancel_left heq]
      exact ha
    · intro h
      exact List.mem_map_of_mem _ h

/-! ## Independence of the order of upserts -/

theorem Get_tail_none {k v : Bytes} {rest : KVStore} (hs : KVStore.Ordered ((k, v) :: rest)) :
    KVStore.Get rest k = none := by
  cases h : KVStore.Get rest k with
  | none => rfl
  | some x =>
    have hlt := (List.pairwise_cons.mp hs).1 _ (mem_of_Get h)
    simp only [bytesLt_irrefl] at hlt
    exact absurd hlt Bool.false_ne_true

/-- Two ordered stores with the same lookups are the same store. -/
theorem Ordered_ext : ∀ {s t : KVStore}, KVStore.Ordered s → KVStore.Ordered t →
    (∀ key, KVStore.Get s key = KVStore.Get t key) → s = t := by
  intro s
  induction s with
  | nil =>
    intro t _ _ h
    cases t with
    | nil => rfl
    | cons e t2 =>
      have := h e.1
      simp [KVStore.Get] at this
  | cons e s2 ih =>
    intro t hs ht h
    obtain ⟨k, v⟩ := e
    cases t with
    | nil =>
      have := h k
      simp [KVStore.Get] at this
    | cons e2 t2 =>
      obtain ⟨k2, v2⟩ := e2
      by_cases hk : k = k2
      · subst hk
        have hv : v = v2 := by
          have := h k
          simpa [KVStore.Get] using this
        subst hv
        have htail : ∀ key, KVStore.Get s2 key = KVStore.Get t2 key := by
          intro key
          by_cases hkey : k = key
          · subst hkey
            rw [Get_tail_none hs, Get_tail_none ht]
          · have := h key
            simpa [KVStore.Get, hkey] using this
        rw [ih (List.pairwise_cons.mp hs).2 (List.pairwise_cons.mp ht).2 htail]
      · exfalso
        have hk2 : ¬ k2 = k := fun h' => hk h'.symm
        have h1 : KVStore.Get t2 k = some v := by
          have := h k
          simpa [KVStore.Get, hk2] using this.symm
        have h2 : KVStore.Get s2 k2 = some v2 := by
          have := h k2
          simpa [KVStore.Get, hk] using this
        have l1 := (List.pairwise_cons.mp ht).1 _ (mem_of_Get h1)
        have l2 := (List.pairwise_cons.mp hs).1 _ (mem_of_Get h2)
        simp only at l1 l2
        rw [bytesLt_asymm l1] at l2
        exact Bool.false_ne_true l2

theorem Ordered_foldl_Set (k : Keeper) (l : List Incentive) :
    ∀ s : KVStore, KVStore.Ordered s → KVStore.Ordered (l.foldl (SetIncentive k) s) := by
  induction l with
  | nil => intro s hs; exact hs
  | cons x l ih =>
    intro s hs
    exact ih _ (Ordered_Set hs _ _)

/-- The lookup of a key after a sequence of upserts: the encoding of the last
incentive of the sequence stored under the key, or what was there before. -/
theorem Get_foldl_Set (k : Keeper) (s : KVStore) (l : List Incentive) (key : Bytes) :
    KVStore.Get (l.foldl (SetIncentive k) s) key
      = match l.reverse.find?
            (fun i => decide (k.KeyPrefixIncentive ++ k.HexToAddress i.Contract = key)) with
        | some i => some (k.cdc.MustMarshal i)
        | none => KVStore.Get s key := by
  induction l using List.reverseRecOn with
  | nil => rfl
  | append_singleton l x ih =>
    rw [List.foldl_append, List.reverse_append]
    simp only [List.foldl_cons, List.foldl_nil, List.reverse_cons, List.reverse_nil,
      List.nil_append, List.singleton_append]
    by_cases hc : k.KeyPrefixIncentive ++ k.HexToAddress x.Contract = key
    · rw [List.find?_cons_of_pos _ (by simpa using hc), ← hc]
      unfold SetIncentive
      exact Get_Set_same _ _ _
    · rw [List.find?_cons_of_neg _ (by simpa using hc)]
      unfold SetIncentive
      rw [Get_Set_other _ _ (fun h => hc h.symm)]
      exact ih

/-- In a list without two elements of the same key, searching for a key finds
the element of the list that has it. -/
theorem find?_of_Nodup {α β : Type} [DecidableEq β] (f : α → β) (b : β) :
    ∀ (l : List α), (l.map f).Nodup → ∀ a ∈ l, f a = b →
      l.find? (fun x => decide (f x = b)) = some a := by
  intro l
  induction l with
  | nil => intro _ a ha; simp at ha
  | cons x l ih =>
    intro hnd a ha hfa
    have hnd2 : f x ∉ l.map f ∧ (l.map f).Nodup := List.nodup_cons.mp hnd
    by_cases hx : f x = b
    · rw [List.find?_cons_of_pos _ (by simpa using hx)]
      rcases List.mem_cons.mp ha with h | h
      · rw [h]
      · exfalso
        apply hnd2.1
        rw [hx, ← hfa]
        exact List.mem_map_of_mem f h
    · rw [List.find?_cons_of_neg _ (by simpa using hx)]
      rcases List.mem_cons.mp ha with h | h
      · exact absurd (h ▸ hfa) hx
      · exact ih hnd2.2 a h hfa

theorem find?_Perm {α β : Type} [DecidableEq β] (f : α → β) (b : β) {l1 l2 : List α}
    (hp : l1.Perm l2) (hnd : (l1.map f).Nodup) :
    l1.find? (fun x => decide (f x = b)) = l2.find? (fun x => decide (f x = b)) := by
  have hnd2 : (l2.map f).Nodup := (hp.map f).nodup_iff.mp hnd
  cases h1 : l1.find? (fun x => decide (f x = b)) with
  | none =>
    cases h2 : l2.find? (fun x => decide (f x = b)) with
    | none => rfl
    | some a =>
      exfalso
      have hmem := hp.symm.subset (List.mem_of_find?_eq_some h2)
      have hfa : f a = b := by simpa using List.find?_some h2
      have := List.find?_eq_none.mp h1 a hmem
      simp [hfa] at this
  | some a =>
    have hmem := hp.subset (List.mem_of_find?_eq_some h1)
    have hfa : f a = b := by simpa using List.find?_some h1
    exact (find?_of_Nodup f b l2 hnd2 a hmem hfa).symm

/-- Upserts of incentives with pairwise different contract keys lead to the
same state in whatever order they are made. -/
theorem foldl_Set_Perm (k : Keeper) (s : KVStore) (hs : KVStore.Ordered s)
    {l1 l2 : List Incentive} (hp : l1.Perm l2) (hnd : (contractKeys k l1).Nodup) :
    l1.foldl (SetIncentive k) s = l2.foldl (SetIncentive k) s := by
  apply Ordered_ext (Ordered_foldl_Set k l1 s hs) (Ordered_foldl_Set k l2 s hs)
  intro key
  rw [Get_foldl_Set, Get_foldl_Set]
  have hnd2 : (l1.reverse.map
      (fun i => k.KeyPrefixIncentive ++ k.HexToAddress i.Contract)).Nodup := by
    have : (l1.map (fun i => k.KeyPrefixIncentive ++ k.HexToAddress i.Contract)).Nodup := by
      have h := hnd.map (f := fun a => k.KeyPrefixIncentive ++ a)
        (fun a b hab => List.append_cancel_left hab)
      simpa [contractKeys, List.map_map] using h
    rw [List.map_reverse]
    exact List.nodup_reverse.mpr this
  have hp2 : l1.reverse.Perm l2.reverse :=
    (List.reverse_perm l1).trans (hp.trans (List.reverse_perm l2).symm)
  rw [find?_Perm (fun i => k.KeyPrefixIncentive ++ k.HexToAddress i.Contract) key hp2 hnd2]

theorem abcState_Reachable : Reachable sampleKeeper abcState :=
  Reachable.setIncentive _ _ (Reachable.setIncentive _ _ (Reachable.setIncentive _ _ Reachable.empty))

/-- The state after registering A, B and C lists each contract once. -/
theorem C5_witness :
    ∃ incentives, GetAllIncentives sampleKeeper abcState = some incentives ∧
      (contractKeys sampleKeeper incentives).Nodup ∧
      ∀ contract, IsIncentiveRegistered sampleKeeper abcState contract = true ↔
        contract ∈ contractKeys sampleKeeper incentives :=
  C5_no_duplicate_contract_keys sampleKeeper sample_DisjointNamespaces sample_RoundTrip
    abcState abcState_Reachable

/-! ## Iteration order -/

theorem Forall₂_congr_mem {α β : Type} {R S : α → β → Prop} :
    ∀ (l : List α) (m : List β), (∀ a ∈ l, ∀ b, R a b ↔ S a b) →
      (List.Forall₂ R l m ↔ List.Forall₂ S l m) := by
  intro l
  induction l with
  | nil =>
    intro m _
    constructor <;> (intro h; cases h; exact List.Forall₂.nil)
  | cons a l ih =>
    intro m h
    have ha := h a (List.mem_cons_self _ _)
    have hl := fun x hx => h x (List.mem_cons_of_mem _ hx)
    constructor
    · intro h2
      cases h2 with
      | cons h3 h4 => exact List.Forall₂.cons ((ha _).mp h3) ((ih _ hl).mp h4)
    · intro h2
      cases h2 with
      | cons h3 h4 => exact List.Forall₂.cons ((ha _).mpr h3) ((ih _ hl).mpr h4)

theorem Iterator_key_split {s : KVStore} {p : Bytes} {e : Bytes × Bytes}
    (he : e ∈ KVStorePrefixIterator s p) : e.1 = p ++ e.1.drop p.length := by
  obtain ⟨r, hr⟩ := hasPrefix_elim (mem_Iterator.mp he).2
  rw [hr, List.drop_left]

/-- Claim C6: in every store state `GetAllIncentives` lists the stored
incentives in strictly ascending order of the contract keys they are stored
under: there is a strictly ascending list of exactly the registered contract
keys such that `GetAllIncentives` returns a list precisely when it consists
of the records stored under these keys, in this order. When the state is key
consistent, as every state built by the keeper is, `GetAllIncentives` returns
and the contract keys of the returned records are strictly ascending. The
result does not depend on the order of the upserts: incentives with pairwise
different contract keys, set in any two orders, give the same result. -/
theorem C6_GetAll_in_ascending_key_order (k : Keeper) (s : KVStore) (hs : KVStore.Ordered s) :
    (∃ keys : List Bytes,
      keys.Pairwise (fun a b => bytesLt a b = true) ∧
      (∀ contract, contract ∈ keys ↔ IsIncentiveRegistered k s contract = true) ∧
      ∀ incentives, GetAllIncentives k s = some incentives ↔
        List.Forall₂ (fun contract i => ∃ bz,
            KVStore.Get s (k.KeyPrefixIncentive ++ contract) = some bz ∧
            k.cdc.MustUnmarshal bz = some i) keys incentives) ∧
    (KeyConsistent k s →
      ∃ incentives, GetAllIncentives k s = some incentives ∧
        (contractKeys k incentives).Pairwise (fun a b => bytesLt a b = true)) ∧
    (∀ l1 l2 : List Incentive, l1.Perm l2 → (contractKeys k l1).Nodup →
      GetAllIncentives k (l1.foldl (SetIncentive k) s)
        = GetAllIncentives k (l2.foldl (SetIncentive k) s)) := by
  refine ⟨?_, ?_, ?_⟩
  · refine ⟨(KVStorePrefixIterator s k.KeyPrefixIncentive).map
      (fun e => e.1.drop k.KeyPrefixIncentive.length), ?_, ?_, ?_⟩
    · apply List.pairwise_map.mpr
      refine List.Pairwise.imp_of_mem ?_ (Ordered_Iterator hs k.KeyPrefixIncentive)
      intro a b ha hb hab
      rw [Iterator_key_split ha, Iterator_key_split hb, bytesLt_append_left] at hab
      exact hab
    · intro contract
      rw [IsRegistered_iff_mem k s hs]
      constructor
      · intro h
        obtain ⟨e, he, hkey⟩ := List.mem_map.mp h
        exact List.mem_map.mpr ⟨e, he, by rw [Iterator_key_split he, hkey]⟩
      · intro h
        obtain ⟨e, he, hkey⟩ := List.mem_map.mp h
        refine List.mem_map.mpr ⟨e, he, ?_⟩
        show e.1.drop k.KeyPrefixIncentive.length = contract
        rw [hkey, List.drop_left]
    · intro incentives
      rw [GetAll_some, List.forall₂_map_left_iff]
      apply Forall₂_congr_mem
      intro e he i
      have hkey := Iterator_key_split he
      have hget : KVStore.Get s e.1 = some e.2 := Get_of_mem hs (mem_Iterator.mp he).1
      rw [← hkey, hget]
      constructor
      · intro h
        exact ⟨e.2, rfl, h⟩
      · rintro ⟨bz, h1, h2⟩
        rw [Option.some.inj h1]
        exact h2
  · intro hk
    obtain ⟨incentives, hall, hkeys⟩ := GetAll_of_KeyConsistent k s hk
    exact ⟨incentives, hall, contractKeys_Pairwise k s hs incentives hkeys⟩
  · intro l1 l2 hp hnd
    rw [foldl_Set_Perm k s hs hp hnd]

/-- The incentives A, B and C, registered in that order, come back as B, C, A:
in the order of their addresses `0xAA`, `0xBB`, `0xCC`. -/
theorem C6_witness :
    (∃ incentives, GetAllIncentives sampleKeeper abcState = some incentives ∧
      (contractKeys sampleKeeper incentives).Pairwise (fun a b => bytesLt a b = true)) ∧
    GetAllIncentives sampleKeeper abcState = some [incentiveB, incentiveC, incentiveA] :=
  ⟨(C6_GetAll_in_ascending_key_order sampleKeeper abcState
      (Reachable_Ordered_KeyConsistent sampleKeeper sample_DisjointNamespaces sample_RoundTrip
        abcState_Reachable).1).2.1
      (Reachable_Ordered_KeyConsistent sampleKeeper sample_DisjointNamespaces sample_RoundTrip
        abcState_Reachable).2,
    by decide⟩

/-! ## Iteration with a callback -/

theorem stateAfter_cons {σ : Type} (handlerFn : σ → Incentive → σ × Bool) (h : σ)
    (i : Incentive) (rest : List Incentive) :
    stateAfter handlerFn h (i :: rest) = stateAfter handlerFn (handlerFn h i).1 rest := rfl

theorem Iterate_loop_stops {σ : Type} (k : Keeper) (handlerFn : σ → Incentive → σ × Bool)
    (stop : Incentive) (rest : List Incentive) :
    ∀ (first : List Incentive) (l : List (Bytes × Bytes)) (h : σ) (log : List Incentive),
      List.Forall₂ (fun e i => k.cdc.MustUnmarshal e.2 = some i) l (first ++ stop :: rest) →
      neverStops handlerFn h first →
      (handlerFn (stateAfter handlerFn h first) stop).2 = true →
      IterateIncentives.loop k (logged handlerFn) l (h, log)
        = some (stateAfter handlerFn h (first ++ [stop]), log ++ (first ++ [stop])) := by
  intro first
  induction first with
  | nil =>
    intro l h log hall _ hstop
    cases hall with
    | cons h1 h2 =>
      simp only [IterateIncentives.loop, h1, logged]
      simp only [stateAfter, List.foldl_nil] at hstop
      simp [hstop, stateAfter]
  | cons i first ih =>
    intro l h log hall hnever hstop
    cases hall with
    | cons h1 h2 =>
      obtain ⟨hi, hnever2⟩ := hnever
      simp only [IterateIncentives.loop, h1, logged, hi]
      rw [stateAfter_cons] at hstop
      have := ih _ (handlerFn h i).1 (log ++ [i]) h2 hnever2 hstop
      simp only [logged] at this
      simp only [Bool.false_eq_true, if_false]
      rw [this]
      simp [stateAfter]

theorem Iterate_loop_runs {σ : Type} (k : Keeper) (handlerFn : σ → Incentive → σ × Bool) :
    ∀ (records : List Incentive) (l : List (Bytes × Bytes)) (h : σ) (log : List Incentive),
      List.Forall₂ (fun e i => k.cdc.MustUnmarshal e.2 = some i) l records →
      neverStops handlerFn h records →
      IterateIncentives.loop k (logged handlerFn) l (h, log)
        = some (stateAfter handlerFn h records, log ++ records) := by
  intro records
  induction records with
  | nil =>
    intro l h log hall _
    cases hall
    simp [IterateIncentives.loop, stateAfter]
  | cons i records ih =>
    intro l h log hall hnever
    cases hall with
    | cons h1 h2 =>
      obtain ⟨hi, hnever2⟩ := hnever
      simp only [IterateIncentives.loop, h1, logged, hi]
      have := ih _ (handlerFn h i).1 (log ++ [i]) h2 hnever2
      simp only [logged] at this
      simp only [Bool.false_eq_true, if_false]
      rw [this]
      simp [stateAfter]

/-- Claim C7: let `GetAllIncentives` list the `n` records of the state in key
order. A callback that first asks to stop on the `j`-th record it is given
(`1 ≤ j ≤ n`) is called by `IterateIncentives` on exactly the first `j`
records of the list, in order, and on no other; a callback that never asks to
stop is called on all `n` records. The calls are read off the log of the
instrumented callback. -/
theorem C7_iterate_stops_at_first_true {σ : Type} (k : Keeper) (s : KVStore)
    (handlerFn : σ → Incentive → σ × Bool) (h : σ) (records : List Incentive)
    (hall : GetAllIncentives k s = some records) :
    (∀ (first : List Incentive) (stop : Incentive) (rest : List Incentive),
      records = first ++ stop :: rest →
      neverStops handlerFn h first →
      (handlerFn (stateAfter handlerFn h first) stop).2 = true →
      IterateIncentives k s (logged handlerFn) (h, [])
        = some (stateAfter handlerFn h (records.take (first.length + 1)),
            records.take (first.length + 1))) ∧
    (neverStops handlerFn h records →
      IterateIncentives k s (logged handlerFn) (h, [])
        = some (stateAfter handlerFn h records, records)) := by
  have hdec := (GetAll_some k s records).mp hall
  constructor
  · intro first stop rest hrec hnever hstop
    have htake : records.take (first.length + 1) = first ++ [stop] := by
      rw [hrec, List.take_append_eq_append_take]
      simp
    rw [htake]
    unfold IterateIncentives
    rw [hrec] at hdec
    rw [Iterate_loop_stops k handlerFn stop rest first _ h [] hdec hnever hstop]
    simp
  · intro hnever
    unfold IterateIncentives
    rw [Iterate_loop_runs k handlerFn records _ h [] hdec hnever]
    simp

/-- A callback that asks to stop at the second record is called on B and C
and not on A. -/
theorem C7_witness :
    IterateIncentives sampleKeeper abcState (logged stopAtSecond) (0, [])
      = some (2, [incentiveB, incentiveC]) :=
  ((C7_iterate_stops_at_first_true sampleKeeper abcState stopAtSecond 0
      [incentiveB, incentiveC, incentiveA] (by decide)).1
    [incentiveB] incentiveC [incentiveA] rfl ⟨by decide, trivial⟩ (by decide)).trans (by decide)

/-! ## Non-negative meters -/

theorem Forall₂_mem_left {α β : Type} {R : α → β → Prop} :
    ∀ {l : List α} {m : List β}, List.Forall₂ R l m → ∀ a ∈ l, ∃ b ∈ m, R a b := by
  intro l m h
  induction h with
  | nil => intro a ha; simp at ha
  | @cons x y l2 m2 hxy _ ih =>
    intro a ha
    rcases List.mem_cons.mp ha with h | h
    · exact ⟨y, List.mem_cons_self _ _, h ▸ hxy⟩
    · obtain ⟨b, hb, hab⟩ := ih a h
      exact ⟨b, List.mem_cons_of_mem _ hb, hab⟩

theorem allocationSum_nonneg (denom : Bytes) (allocations : List DecCoin)
    (h : ∀ al ∈ allocations, 0 ≤ al.Amount) : 0 ≤ allocationSum denom allocations := by
  unfold allocationSum
  apply List.sum_nonneg
  intro x hx
  obtain ⟨al, hal, rfl⟩ := List.mem_map.mp hx
  exact h al (List.mem_filter.mp hal).1

theorem allocationSum_le_total (denom : Bytes) (incentives : List Incentive)
    (h : ∀ i ∈ incentives, ∀ al ∈ i.Allocations, 0 ≤ al.Amount)
    (incentive : Incentive) (hmem : incentive ∈ incentives) :
    allocationSum denom incentive.Allocations ≤ allocationTotal denom incentives := by
  unfold allocationTotal
  apply List.single_le_sum
  · intro x hx
    obtain ⟨i, hi, rfl⟩ := List.mem_map.mp hx
    exact allocationSum_nonneg denom _ (h i hi)
  · exact List.mem_map_of_mem _ hmem

/-- Claim C11: in a state in which the reconciliation invariant holds and all
allocation amounts of the stored incentives are non-negative, the deletion of
an incentive that is the value stored under its contract key returns, and
afterwards the amount of every allocation meter is non-negative. -/
theorem C11_meters_stay_nonnegative (k : Keeper) (hd : k.DisjointNamespaces)
    (hdec : k.DecRoundTrip) (s : KVStore) (incentive : Incentive) (hrec : Reconciled k s)
    (hnonneg : ∀ incentives, GetAllIncentives k s = some incentives →
      ∀ i ∈ incentives, ∀ al ∈ i.Allocations, 0 ≤ al.Amount)
    (hstored : GetIncentive k s (k.HexToAddress incentive.Contract) = some (incentive, true)) :
    ∃ s2, DeleteIncentiveAndUpdateAllocationMeters k s incentive = some s2 ∧
      ∀ denom, ∃ am found, GetAllocationMeter k s2 denom = some (am, found) ∧ 0 ≤ am.Amount := by
  obtain ⟨incentives, hall, hmeters⟩ := hrec
  have hm : MetersReadable k s incentive.Allocations := by
    intro al _
    obtain ⟨found, h⟩ := hmeters al.Denom
    rw [h]; rfl
  obtain ⟨s2, hrun, hmeter, _, _, _⟩ := Delete_spec k hd hdec s incentive hm
  obtain ⟨bz, hbz, hdecode⟩ := GetIncentive_found hstored
  have hentry : (k.KeyPrefixIncentive ++ k.HexToAddress incentive.Contract, bz)
      ∈ KVStorePrefixIterator s k.KeyPrefixIncentive :=
    mem_Iterator.mpr ⟨mem_of_Get hbz, hasPrefix_append _ _⟩
  obtain ⟨i, hi, hdi⟩ := Forall₂_mem_left ((GetAll_some k s incentives).mp hall) _ hentry
  have hmem : incentive ∈ incentives := by
    simp only [hdecode, Option.some.injEq] at hdi
    rw [hdi]; exact hi
  refine ⟨s2, hrun, ?_⟩
  intro denom
  obtain ⟨found, h⟩ := hmeters denom
  refine ⟨_, _, hmeter denom _ found h, ?_⟩
  have hle := allocationSum_le_total denom incentives (hnonneg incentives hall) incentive hmem
  exact Int.sub_nonneg_of_le hle

/-- The example scenario: after the deletion no meter is negative. -/
theorem C11_witness :
    ∃ s2, DeleteIncentiveAndUpdateAllocationMeters sampleKeeper exampleState exampleIncentive
        = some s2 ∧
      ∀ denom, ∃ am found,
        GetAllocationMeter sampleKeeper s2 denom = some (am, found) ∧ 0 ≤ am.Amount :=
  C11_meters_stay_nonnegative sampleKeeper sample_DisjointNamespaces sample_DecRoundTrip
    exampleState exampleIncentive exampleState_Reconciled
    (by
      intro incentives h
      have h2 : GetAllIncentives sampleKeeper exampleState = some [exampleIncentive] := by decide
      rw [h2] at h
      cases h
      decide)
    (by decide)

/-! ## Deletion without a registration check -/

theorem Get_none_not_mem {s : KVStore} {key : Bytes} (h : KVStore.Get s key = none) :
    ∀ e ∈ s, e.1 ≠ key := by
  induction s with
  | nil => intro e he; simp at he
  | cons e0 rest ih =>
    obtain ⟨k0, v0⟩ := e0
    by_cases h1 : k0 = key
    · simp [KVStore.Get, h1] at h
    · simp only [KVStore.Get, h1, if_false] at h
      intro e he
      rcases List.mem_cons.mp he with h2 | h2
      · rw [h2]; exact h1
      · exact ih h e h2

theorem Delete_absent {s : KVStore} {key : Bytes} (h : KVStore.Get s key = none) :
    KVStore.Delete s key = s := by
  unfold KVStore.Delete
  apply List.filter_eq_self.mpr
  intro e he
  simpa using Get_none_not_mem h e he

/-- Claim C12: the deletion makes no registration check. For an incentive
whose contract key holds no record the call still returns (when the meters it
reads decode), leaves the incentive records as they were, what
`GetAllIncentives` returns included, and subtracts from every meter the
allocations the incentive lists for its denomination. -/
theorem C12_delete_unregistered_still_subtracts (k : Keeper) (hd : k.DisjointNamespaces)
    (hdec : k.DecRoundTrip) (s : KVStore) (incentive : Incentive)
    (hm : MetersReadable k s incentive.Allocations)
    (habsent : IsIncentiveRegistered k s (k.HexToAddress incentive.Contract) = false) :
    ∃ s2, DeleteIncentiveAndUpdateAllocationMeters k s incentive = some s2 ∧
      KVStorePrefixIterator s2 k.KeyPrefixIncentive
        = KVStorePrefixIterator s k.KeyPrefixIncentive ∧
      GetAllIncentives k s2 = GetAllIncentives k s ∧
      (∀ contract, GetIncentive k s2 contract = GetIncentive k s contract) ∧
      (∀ denom am found, GetAllocationMeter k s denom = some (am, found) →
        GetAllocationMeter k s2 denom
          = some (⟨denom, am.Amount - allocationSum denom incentive.Allocations⟩,
              found || decide (denom ∈ incentive.Allocations.map DecCoin.Denom))) := by
  obtain ⟨s2, hrun, hmeter, hframe, hiter, _⟩ := Delete_spec k hd hdec s incentive hm
  have hnone : KVStore.Get s (k.KeyPrefixIncentive ++ k.HexToAddress incentive.Contract)
      = none := by
    unfold IsIncentiveRegistered KVStore.Has at habsent
    cases hget : KVStore.Get s (k.KeyPrefixIncentive ++ k.HexToAddress incentive.Contract) with
    | none => rfl
    | some bz => rw [hget] at habsent; cases habsent
  have hsame : KVStorePrefixIterator s2 k.KeyPrefixIncentive
      = KVStorePrefixIterator s k.KeyPrefixIncentive := by
    rw [hiter, ← Iterator_Delete, Delete_absent hnone]
  refine ⟨s2, hrun, hsame, ?_, ?_, hmeter⟩
  · unfold GetAllIncentives
    rw [hsame]
  · intro contract
    unfold GetIncentive
    rw [hframe, Delete_absent hnone]

/-- The incentive A is not registered in the state; deleting it leaves the
records alone and still takes its allocation off the meter of `uatom`. -/
theorem C12_witness :
    ∃ s2, DeleteIncentiveAndUpdateAllocationMeters sampleKeeper repeatedState incentiveA
        = some s2 ∧
      KVStorePrefixIterator s2 sampleKeeper.KeyPrefixIncentive
        = KVStorePrefixIterator repeatedState sampleKeeper.KeyPrefixIncentive ∧
      GetAllIncentives sampleKeeper s2 = GetAllIncentives sampleKeeper repeatedState ∧
      (∀ contract, GetIncentive sampleKeeper s2 contract
        = GetIncentive sampleKeeper repeatedState contract) ∧
      (∀ denom am found, GetAllocationMeter sampleKeeper repeatedState denom = some (am, found) →
        GetAllocationMeter sampleKeeper s2 denom
          = some (⟨denom, am.Amount - allocationSum denom incentiveA.Allocations⟩,
              found || decide (denom ∈ incentiveA.Allocations.map DecCoin.Denom))) :=
  C12_delete_unregistered_still_subtracts sampleKeeper sample_DisjointNamespaces
    sample_DecRoundTrip repeatedState incentiveA (by unfold MetersReadable; decide) (by decide)

/-! ## Iteration and listing -/

theorem Iterate_loop_log {σ : Type} (k : Keeper) (handlerFn : σ → Incentive → σ × Bool)
    (hnever : ∀ h i, (handlerFn h i).2 = false) :
    ∀ (l : List (Bytes × Bytes)) (h : σ) (log : List Incentive),
      (IterateIncentives.loop k (logged handlerFn) l (h, log)).map Prod.snd
        = GetAllIncentives.loop k l log := by
  intro l
  induction l with
  | nil => intro h log; rfl
  | cons e rest ih =>
    intro h log
    cases hd : k.cdc.MustUnmarshal e.2 with
    | none => simp [IterateIncentives.loop, GetAllIncentives.loop, hd]
    | some inc =>
      simp only [IterateIncentives.loop, GetAllIncentives.loop, hd, logged, hnever,
        Bool.false_eq_true, if_false]
      exact ih _ _

/-- Claim C13: with a callback that never asks to stop, the records
`IterateIncentives` passes to the callback, in the order of the calls, are
the list `GetAllIncentives` returns (and the one panics exactly when the other
does). The calls are read off the log of the instrumented callback. -/
theorem C13_iterate_visits_what_GetAll_lists {σ : Type} (k : Keeper) (s : KVStore)
    (handlerFn : σ → Incentive → σ × Bool) (h : σ)
    (hnever : ∀ h i, (handlerFn h i).2 = false) :
    (IterateIncentives k s (logged handlerFn) (h, [])).map Prod.snd = GetAllIncentives k s := by
  unfold IterateIncentives GetAllIncentives
  exact Iterate_loop_log k handlerFn hnever _ h []

/-- The counting callback is called on B, C and A, the list of
`GetAllIncentives`. -/
theorem C13_witness :
    (IterateIncentives sampleKeeper abcState (logged countAll) (0, [])).map Prod.snd
      = some [incentiveB, incentiveC, incentiveA] :=
  (C13_iterate_visits_what_GetAll_lists sampleKeeper abcState countAll 0
    (fun _ _ => rfl)).trans (by decide)

/-! ## Meters after the deletion -/

/-- Claim C14: the deletion removes no meter. When it returns, the meter
lookup for every denomination of the incentive's allocations gives
`found = true`, also when the amount has come down to zero. -/
theorem C14_meters_present_after_deletion (k : Keeper) (hd : k.DisjointNamespaces)
    (hdec : k.DecRoundTrip) (s : KVStore) (incentive : Incentive)
    (hm : MetersReadable k s incentive.Allocations) :
    ∃ s2, DeleteIncentiveAndUpdateAllocationMeters k s incentive = some s2 ∧
      ∀ al ∈ incentive.Allocations,
        ∃ amount, GetAllocationMeter k s2 al.Denom = some (⟨al.Denom, amount⟩, true) := by
  obtain ⟨s2, hrun, hmeter, _, _, _⟩ := Delete_spec k hd hdec s incentive hm
  refine ⟨s2, hrun, ?_⟩
  intro al hal
  obtain ⟨⟨before, found⟩, hget⟩ := Option.isSome_iff_exists.mp (hm al hal)
  refine ⟨before.Amount - allocationSum al.Denom incentive.Allocations, ?_⟩
  rw [hmeter _ _ _ hget]
  have : al.Denom ∈ incentive.Allocations.map DecCoin.Denom := List.mem_map_of_mem _ hal
  simp [this]

/-- The example scenario: the meters `uatom = 10` and `uosmo = 5` are both
present with amount 0 after the deletion. -/
theorem C14_witness :
    (∃ s2, DeleteIncentiveAndUpdateAllocationMeters sampleKeeper exampleState exampleIncentive
        = some s2 ∧
      ∀ al ∈ exampleIncentive.Allocations,
        ∃ amount, GetAllocationMeter sampleKeeper s2 al.Denom = some (⟨al.Denom, amount⟩, true)) ∧
    (DeleteIncentiveAndUpdateAllocationMeters sampleKeeper exampleState exampleIncentive).bind
        (fun s2 => GetAllocationMeter sampleKeeper s2 (str "uatom"))
      = some (⟨str "uatom", 0⟩, true) ∧
    (DeleteIncentiveAndUpdateAllocationMeters sampleKeeper exampleState exampleIncentive).bind
        (fun s2 => GetAllocationMeter sampleKeeper s2 (str "uosmo"))
      = some (⟨str "uosmo", 0⟩, true) :=
  ⟨C14_meters_present_after_deletion sampleKeeper sample_DisjointNamespaces
      sample_DecRoundTrip exampleState exampleIncentive (by unfold MetersReadable; decide),
    by decide, by decide⟩

/-- Claim C15: the deletion returns when the meters it reads decode, and then
the meter of every denomination stands at its amount before (zero when the
meter was absent) minus the sum of the amounts of all allocations of the
incentive with that denomination: a denomination listed several times loses
all of its amounts. -/
theorem C15_meter_decreases_by_sum (k : Keeper) (hd : k.DisjointNamespaces)
    (hdec : k.DecRoundTrip) (s : KVStore) (incentive : Incentive)
    (hm : MetersReadable k s incentive.Allocations) :
    ∃ s2, DeleteIncentiveAndUpdateAllocationMeters k s incentive = some s2 ∧
      ∀ denom before found, GetAllocationMeter k s denom = some (before, found) →
        ∃ found2, GetAllocationMeter k s2 denom
          = some (⟨denom, before.Amount - allocationSum denom incentive.Allocations⟩, found2) := by
  obtain ⟨s2, hrun, hmeter, _, _, _⟩ := Delete_spec k hd hdec s incentive hm
  exact ⟨s2, hrun, fun denom before found h => ⟨_, hmeter denom before found h⟩⟩

/-- The allocations `uatom 10` and `uatom 5` take 15 off the meter of
`uatom`. -/
theorem C15_witness :
    (∃ s2, DeleteIncentiveAndUpdateAllocationMeters sampleKeeper repeatedState repeatedIncentive
        = some s2 ∧
      ∀ denom before found,
        GetAllocationMeter sampleKeeper repeatedState denom = some (before, found) →
        ∃ found2, GetAllocationMeter sampleKeeper s2 denom
          = some (⟨denom, before.Amount - allocationSum denom repeatedIncentive.Allocations⟩,
              found2)) ∧
    allocationSum (str "uatom") repeatedIncentive.Allocations = 15 :=
  ⟨C15_meter_decreases_by_sum sampleKeeper sample_DisjointNamespaces sample_DecRoundTrip
      repeatedState repeatedIncentive (by unfold MetersReadable; decide),
    by decide⟩

/-! ## What reachable states hold -/

theorem Delete_loop_entries (k : Keeper) :
    ∀ (allocations : List DecCoin) (s s2 : KVStore),
      DeleteIncentiveAndUpdateAllocationMeters.loop k allocations s = some s2 →
      ∀ e ∈ s2, e ∈ s ∨ k.Writes e := by
  intro allocations
  induction allocations with
  | nil =>
    intro s s2 h e he
    cases h
    exact Or.inl he
  | cons al rest ih =>
    intro s s2 h e he
    simp only [DeleteIncentiveAndUpdateAllocationMeters.loop] at h
    split at h
    · cases h
    · rename_i am found _
      rcases ih _ _ h e he with h1 | h1
      · unfold SetAllocationMeter at h1
        rcases mem_Set h1 with h2 | h2
        · exact Or.inr (Or.inr ⟨⟨al.Denom, am.Amount - al.Amount⟩, h2⟩)
        · exact Or.inl h2
      · exact Or.inr h1

/-- Every entry of a reachable state is one the keeper wrote. -/
theorem Reachable_Writes (k : Keeper) {s : KVStore} (hr : Reachable k s) :
    ∀ e ∈ s, k.Writes e := by
  have hset : ∀ (s : KVStore) (incentive : Incentive),
      (∀ e ∈ s, k.Writes e) → ∀ e ∈ SetIncentive k s incentive, k.Writes e := by
    intro s incentive hs e he
    unfold SetIncentive at he
    rcases mem_Set he with h | h
    · exact Or.inl ⟨incentive, h⟩
    · exact hs e h
  induction hr with
  | empty => intro e he; simp at he
  | setIncentive s incentive _ ih => exact hset s incentive ih
  | setTotalGas s incentive gas _ ih => exact hset s _ ih
  | delete s incentive s2 _ hrun ih =>
    intro e he
    unfold DeleteIncentiveAndUpdateAllocationMeters at hrun
    rcases Delete_loop_entries k _ _ _ hrun e he with h | h
    · exact ih e (List.mem_filter.mp h).1
    · exact h

/-- In a reachable state every meter can be read. -/
theorem Reachable_MetersReadable (k : Keeper) (hd : k.DisjointNamespaces)
    (hdec : k.DecRoundTrip) {s : KVStore} (hr : Reachable k s) (allocations : List DecCoin) :
    MetersReadable k s allocations := by
  intro al _
  unfold GetAllocationMeter
  cases hget : KVStore.Get s (k.KeyPrefixAllocationMeter ++ al.Denom) with
  | none => rfl
  | some bz =>
    rcases Reachable_Writes k hr _ (mem_of_Get hget) with ⟨incentive, h⟩ | ⟨am, h⟩
    · exact absurd (Prod.mk.inj h).1.symm (hd _ _)
    · rw [(Prod.mk.inj h).2]
      simp only [hdec am.Amount]
      rfl

/-- In a reachable state what is stored under a contract key is the encoding
of an incentive whose contract parses to that key. -/
theorem Reachable_stored_encoding (k : Keeper) (hd : k.DisjointNamespaces) {s : KVStore}
    (hr : Reachable k s) {contract bz : Bytes}
    (hget : KVStore.Get s (k.KeyPrefixIncentive ++ contract) = some bz) :
    ∃ incentive : Incentive, bz = k.cdc.MustMarshal incentive ∧
      k.HexToAddress incentive.Contract = contract := by
  rcases Reachable_Writes k hr _ (mem_of_Get hget) with ⟨incentive, h⟩ | ⟨am, h⟩
  · exact ⟨incentive, (Prod.mk.inj h).2, (List.append_cancel_left (Prod.mk.inj h).1).symm⟩
  · exact absurd (Prod.mk.inj h).1 (hd _ _)

/-! ## The found flag and the registration test -/

/-- Claim C16 as stated fails: in a store that holds the empty byte string
under the contract key of `0xAA`, `GetIncentive` returns the zero value with
`found = false` (the value has length zero) while `IsIncentiveRegistered` is
true (the key is present). -/
theorem C16_counterexample_empty_value :
    GetIncentive sampleKeeper emptyValueState (sampleKeeper.HexToAddress (str "0xAA"))
      = some (Incentive.zero, false) ∧
    IsIncentiveRegistered sampleKeeper emptyValueState (sampleKeeper.HexToAddress (str "0xAA"))
      = true := by
  decide

/-- Claim C16, amended: in every store state `GetIncentive` returns when the
value under the contract key, if there is one, is empty or decodes; whenever
it returns, its found flag equals `IsIncentiveRegistered` exactly when the
value stored under the contract key is not the empty byte string; and in
every reachable state, with a codec that round-trips and encodes no incentive
as the empty byte string, no contract key holds an empty value, `GetIncentive`
returns and its found flag is `IsIncentiveRegistered`. -/
theorem C16_found_flag_equals_registered (k : Keeper) (s : KVStore) (contract : Bytes) :
    ((∀ bz, KVStore.Get s (k.KeyPrefixIncentive ++ contract) = some bz → bz ≠ [] →
        (k.cdc.MustUnmarshal bz).isSome = true) →
      ∃ incentive found, GetIncentive k s contract = some (incentive, found)) ∧
    (∀ incentive found, GetIncentive k s contract = some (incentive, found) →
      (found = IsIncentiveRegistered k s contract ↔
        KVStore.Get s (k.KeyPrefixIncentive ++ contract) ≠ some [])) ∧
    (k.DisjointNamespaces → k.RoundTrip → k.NonEmptyEncoding → Reachable k s →
      KVStore.Get s (k.KeyPrefixIncentive ++ contract) ≠ some [] ∧
      ∃ incentive, GetIncentive k s contract
        = some (incentive, IsIncentiveRegistered k s contract)) := by
  refine ⟨?_, ?_, ?_⟩
  · intro hdecodes
    unfold GetIncentive
    cases hget : KVStore.Get s (k.KeyPrefixIncentive ++ contract) with
    | none => exact ⟨_, _, rfl⟩
    | some bz =>
      by_cases hlen : bz.length = 0
      · exact ⟨Incentive.zero, false, by simp [hlen]⟩
      · have hbz : bz ≠ [] := fun h0 => hlen (by rw [h0]; rfl)
        obtain ⟨incentive, hinc⟩ := Option.isSome_iff_exists.mp (hdecodes bz hget hbz)
        exact ⟨incentive, true, by simp [hlen, hinc]⟩
  · intro incentive found h
    unfold GetIncentive at h
    unfold IsIncentiveRegistered KVStore.Has
    cases hget : KVStore.Get s (k.KeyPrefixIncentive ++ contract) with
    | none =>
      rw [hget] at h
      cases h
      simp
    | some bz =>
      rw [hget] at h
      simp only at h
      by_cases hlen : bz.length = 0
      · simp only [hlen, if_true, Option.some.injEq, Prod.mk.injEq] at h
        have hbz : bz = [] := List.length_eq_zero.mp hlen
        simp [← h.2, hbz]
      · simp only [hlen, if_false] at h
        have hbz : bz ≠ [] := fun h0 => hlen (by rw [h0]; rfl)
        split at h
        · cases h
        · cases h
          simp [hbz]
  · intro hd hrt hne hr
    unfold GetIncentive IsIncentiveRegistered KVStore.Has
    cases hget : KVStore.Get s (k.KeyPrefixIncentive ++ contract) with
    | none => exact ⟨by simp, Incentive.zero, rfl⟩
    | some bz =>
      obtain ⟨incentive, hbz, _⟩ := Reachable_stored_encoding k hd hr hget
      have hne2 : bz ≠ [] := hbz ▸ hne incentive
      have hlen : ¬ bz.length = 0 := fun h0 => hne2 (List.length_eq_zero.mp h0)
      refine ⟨by simpa using hne2, incentive, ?_⟩
      subst hbz
      simp only [hlen, if_false, hrt incentive, Option.isSome_some]

/-- In the state after registering A, B and C the found flag is the
registration test, for the registered `0xAA` and for the unregistered
`0xDD`; in the store with an empty value under `0xAA`, `GetIncentive` still
returns. -/
theorem C16_witness :
    (∃ incentive, GetIncentive sampleKeeper abcState (sampleKeeper.HexToAddress (str "0xAA"))
      = some (incentive,
          IsIncentiveRegistered sampleKeeper abcState (sampleKeeper.HexToAddress (str "0xAA")))) ∧
    (∃ incentive, GetIncentive sampleKeeper abcState (sampleKeeper.HexToAddress (str "0xDD"))
      = some (incentive,
          IsIncentiveRegistered sampleKeeper abcState (sampleKeeper.HexToAddress (str "0xDD")))) ∧
    (true = IsIncentiveRegistered sampleKeeper abcState (sampleKeeper.HexToAddress (str "0xAA")) ↔
      KVStore.Get abcState
        (sampleKeeper.KeyPrefixIncentive ++ sampleKeeper.HexToAddress (str "0xAA")) ≠ some []) ∧
    (∃ incentive found,
      GetIncentive sampleKeeper emptyValueState (sampleKeeper.HexToAddress (str "0xAA"))
        = some (incentive, found)) :=
  ⟨((C16_found_flag_equals_registered sampleKeeper abcState _).2.2 sample_DisjointNamespaces
      sample_RoundTrip sample_NonEmptyEncoding abcState_Reachable).2,
   ((C16_found_flag_equals_registered sampleKeeper abcState _).2.2 sample_DisjointNamespaces
      sample_RoundTrip sample_NonEmptyEncoding abcState_Reachable).2,
   (C16_found_flag_equals_registered sampleKeeper abcState _).2.1 incentiveB true (by decide),
   (C16_found_flag_equals_registered sampleKeeper emptyValueState _).1 (by decide)⟩

/-- No reachable state holds an empty value under a contract key exactly when
the codec encodes no incentive as the empty byte string. -/
theorem no_empty_value_iff_NonEmptyEncoding (k : Keeper) (hd : k.DisjointNamespaces) :
    (∀ s, Reachable k s → ∀ contract,
      KVStore.Get s (k.KeyPrefixIncentive ++ contract) ≠ some []) ↔ k.NonEmptyEncoding := by
  constructor
  · intro h incentive hempty
    have hget : KVStore.Get (SetIncentive k [] incentive)
        (k.KeyPrefixIncentive ++ k.HexToAddress incentive.Contract)
        = some (k.cdc.MustMarshal incentive) := by
      unfold SetIncentive
      exact Get_Set_same _ _ _
    rw [hempty] at hget
    exact h _ (Reachable.setIncentive [] incentive Reachable.empty) _ hget
  · intro hne s hr contract hget
    obtain ⟨incentive, hbz, _⟩ := Reachable_stored_encoding k hd hr hget
    exact hne incentive hbz.symm

/-! ## Frames -/

theorem Delete_loop_Get_other (k : Keeper) :
    ∀ (allocations : List DecCoin) (s s2 : KVStore),
      DeleteIncentiveAndUpdateAllocationMeters.loop k allocations s = some s2 →
      ∀ key, (∀ al ∈ allocations, key ≠ k.KeyPrefixAllocationMeter ++ al.Denom) →
        KVStore.Get s2 key = KVStore.Get s key := by
  intro allocations
  induction allocations with
  | nil =>
    intro s s2 h key _
    cases h
    rfl
  | cons al rest ih =>
    intro s s2 h key hkey
    simp only [DeleteIncentiveAndUpdateAllocationMeters.loop] at h
    split at h
    · cases h
    · rw [ih _ _ h key (fun x hx => hkey x (List.mem_cons_of_mem _ hx))]
      unfold SetAllocationMeter
      exact Get_Set_other s _ (hkey al (List.mem_cons_self _ _))

/-- Claim C17: the deletion returns when the meters it reads decode, and it
leaves unchanged what is stored, what `GetIncentive` returns and what
`IsIncentiveRegistered` answers for every contract key other than the
incentive's, and what is stored and what `GetAllocationMeter` returns for
every denomination that does not occur in the incentive's allocations. -/
theorem C17_deletion_frame (k : Keeper) (hd : k.DisjointNamespaces) (hdec : k.DecRoundTrip)
    (s : KVStore) (incentive : Incentive) (hm : MetersReadable k s incentive.Allocations) :
    ∃ s2, DeleteIncentiveAndUpdateAllocationMeters k s incentive = some s2 ∧
      (∀ contract, contract ≠ k.HexToAddress incentive.Contract →
        KVStore.Get s2 (k.KeyPrefixIncentive ++ contract)
          = KVStore.Get s (k.KeyPrefixIncentive ++ contract) ∧
        GetIncentive k s2 contract = GetIncentive k s contract ∧
        IsIncentiveRegistered k s2 contract = IsIncentiveRegistered k s contract) ∧
      (∀ denom, denom ∉ incentive.Allocations.map DecCoin.Denom →
        KVStore.Get s2 (k.KeyPrefixAllocationMeter ++ denom)
          = KVStore.Get s (k.KeyPrefixAllocationMeter ++ denom) ∧
        GetAllocationMeter k s2 denom = GetAllocationMeter k s denom) := by
  obtain ⟨s2, hrun, _, _, _, _⟩ := Delete_spec k hd hdec s incentive hm
  have hloop := hrun
  unfold DeleteIncentiveAndUpdateAllocationMeters at hloop
  have hother := Delete_loop_Get_other k _ _ _ hloop
  refine ⟨s2, hrun, ?_, ?_⟩
  · intro contract hne
    have hget : KVStore.Get s2 (k.KeyPrefixIncentive ++ contract)
        = KVStore.Get s (k.KeyPrefixIncentive ++ contract) := by
      rw [hother _ (fun al _ => hd contract al.Denom)]
      exact Get_Delete_other s (fun h => hne (List.append_cancel_left h))
    refine ⟨hget, ?_, ?_⟩
    · unfold GetIncentive
      rw [hget]
    · unfold IsIncentiveRegistered KVStore.Has
      rw [hget]
  · intro denom hnot
    have hget : KVStore.Get s2 (k.KeyPrefixAllocationMeter ++ denom)
        = KVStore.Get s (k.KeyPrefixAllocationMeter ++ denom) := by
      rw [hother _ (fun al hal h => hnot
        (List.mem_map.mpr ⟨al, hal, (List.append_cancel_left h).symm⟩))]
      exact Get_Delete_other s (fun h => hd _ _ h.symm)
    refine ⟨hget, ?_⟩
    unfold GetAllocationMeter
    rw [hget]

/-- Deleting A from the state that holds A, B and C with a meter for `uosmo`
leaves B, C and that meter as they were. -/
theorem C17_witness :
    ∃ s2, DeleteIncentiveAndUpdateAllocationMeters sampleKeeper
        (SetAllocationMeter sampleKeeper abcState ⟨str "uosmo", 2⟩) incentiveA = some s2 ∧
      (∀ contract, contract ≠ sampleKeeper.HexToAddress incentiveA.Contract →
        KVStore.Get s2 (sampleKeeper.KeyPrefixIncentive ++ contract)
          = KVStore.Get (SetAllocationMeter sampleKeeper abcState ⟨str "uosmo", 2⟩)
              (sampleKeeper.KeyPrefixIncentive ++ contract) ∧
        GetIncentive sampleKeeper s2 contract
          = GetIncentive sampleKeeper (SetAllocationMeter sampleKeeper abcState ⟨str "uosmo", 2⟩)
              contract ∧
        IsIncentiveRegistered sampleKeeper s2 contract
          = IsIncentiveRegistered sampleKeeper
              (SetAllocationMeter sampleKeeper abcState ⟨str "uosmo", 2⟩) contract) ∧
      (∀ denom, denom ∉ incentiveA.Allocations.map DecCoin.Denom →
        KVStore.Get s2 (sampleKeeper.KeyPrefixAllocationMeter ++ denom)
          = KVStore.Get (SetAllocationMeter sampleKeeper abcState ⟨str "uosmo", 2⟩)
              (sampleKeeper.KeyPrefixAllocationMeter ++ denom) ∧
        GetAllocationMeter sampleKeeper s2 denom
          = GetAllocationMeter sampleKeeper
              (SetAllocationMeter sampleKeeper abcState ⟨str "uosmo", 2⟩) denom) :=
  C17_deletion_frame sampleKeeper sample_DisjointNamespaces sample_DecRoundTrip
    (SetAllocationMeter sampleKeeper abcState ⟨str "uosmo", 2⟩) incentiveA
    (by unfold MetersReadable; decide)

theorem UpsertFrame_Set (k : Keeper) (hd : k.DisjointNamespaces) (s : KVStore)
    (incentive : Incentive) :
    UpsertFrame k (k.HexToAddress incentive.Contract) s (SetIncentive k s incentive) := by
  constructor
  · intro denom
    unfold GetAllocationMeter SetIncentive
    rw [Get_Set_other s _ (fun h => hd _ _ h.symm)]
  · intro other hne
    have hget : KVStore.Get (SetIncentive k s incentive) (k.KeyPrefixIncentive ++ other)
        = KVStore.Get s (k.KeyPrefixIncentive ++ other) := by
      unfold SetIncentive
      exact Get_Set_other s _ (fun h => hne (List.append_cancel_left h))
    constructor
    · unfold GetIncentive
      rw [hget]
    · unfold IsIncentiveRegistered KVStore.Has
      rw [hget]

/-- Claim C18: `SetIncentive` and `SetIncentiveTotalGas` leave every
allocation meter as it was, so storing an incentive adds its allocations to no
meter, and they leave the record of every contract key other than the
incentive's as it was. -/
theorem C18_upsert_frame (k : Keeper) (hd : k.DisjointNamespaces) (s : KVStore)
    (incentive : Incentive) (gas : Nat) :
    UpsertFrame k (k.HexToAddress incentive.Contract) s (SetIncentive k s incentive) ∧
    UpsertFrame k (k.HexToAddress incentive.Contract) s
      (SetIncentiveTotalGas k s incentive gas) :=
  ⟨UpsertFrame_Set k hd s incentive,
   UpsertFrame_Set k hd s { incentive with TotalGas := gas }⟩

/-- Registering A, which allocates `uatom 1`, or setting its gas in the example
state leaves the meter `uatom = 10` as it was. -/
theorem C18_witness :
    (UpsertFrame sampleKeeper (sampleKeeper.HexToAddress incentiveA.Contract) exampleState
        (SetIncentive sampleKeeper exampleState incentiveA) ∧
      UpsertFrame sampleKeeper (sampleKeeper.HexToAddress incentiveA.Contract) exampleState
        (SetIncentiveTotalGas sampleKeeper exampleState incentiveA 9)) ∧
    GetAllocationMeter sampleKeeper (SetIncentive sampleKeeper exampleState incentiveA)
        (str "uatom") = some (⟨str "uatom", 10⟩, true) :=
  ⟨C18_upsert_frame sampleKeeper sample_DisjointNamespaces exampleState incentiveA 9,
   by decide⟩

/-! ## Key consistency -/

/-- Claim C19: in every reachable state each record of the incentive
namespace is stored under the address its contract parses to, so
`GetIncentive` finds under an address only records whose contract parses to
it; and an incentive set under one spelling of a contract is registered under,
and removed by the deletion with, any other spelling that parses to the same
address. -/
theorem C19_key_consistency (k : Keeper) (hd : k.DisjointNamespaces) (hrt : k.RoundTrip)
    (hdec : k.DecRoundTrip) (s : KVStore) (hr : Reachable k s) :
    KeyConsistent k s ∧
    (∀ contract incentive, GetIncentive k s contract = some (incentive, true) →
      k.HexToAddress incentive.Contract = contract) ∧
    (∀ a b : Incentive, k.HexToAddress a.Contract = k.HexToAddress b.Contract →
      IsIncentiveRegistered k (SetIncentive k s a) (k.HexToAddress b.Contract) = true ∧
      ∃ s2, DeleteIncentiveAndUpdateAllocationMeters k (SetIncentive k s a) b = some s2 ∧
        IsIncentiveRegistered k s2 (k.HexToAddress a.Contract) = false) := by
  refine ⟨(Reachable_Ordered_KeyConsistent k hd hrt hr).2, ?_, ?_⟩
  · intro contract incentive h
    obtain ⟨bz, hget, hdecode⟩ := GetIncentive_found h
    obtain ⟨stored, hbz, hkey⟩ := Reachable_stored_encoding k hd hr hget
    rw [hbz, hrt stored] at hdecode
    rw [← Option.some.inj hdecode]
    exact hkey
  · intro a b hab
    constructor
    · rw [← hab]
      unfold IsIncentiveRegistered KVStore.Has SetIncentive
      rw [Get_Set_same]
      rfl
    · have hr2 : Reachable k (SetIncentive k s a) := Reachable.setIncentive s a hr
      obtain ⟨s2, hrun, _, hframe, _, _⟩ := Delete_spec k hd hdec (SetIncentive k s a) b
        (Reachable_MetersReadable k hd hdec hr2 b.Allocations)
      refine ⟨s2, hrun, ?_⟩
      unfold IsIncentiveRegistered KVStore.Has
      rw [hab, hframe, Get_Delete_same]
      rfl

/-- The example incentive set as `0xAA` and deleted as `0xaa`: both
spellings address the same key. -/
theorem C19_witness :
    IsIncentiveRegistered sampleKeeper (SetIncentive sampleKeeper abcState exampleIncentive)
        (sampleKeeper.HexToAddress exampleIncentiveLower.Contract) = true ∧
    ∃ s2, DeleteIncentiveAndUpdateAllocationMeters sampleKeeper
        (SetIncentive sampleKeeper abcState exampleIncentive) exampleIncentiveLower = some s2 ∧
      IsIncentiveRegistered sampleKeeper s2
        (sampleKeeper.HexToAddress exampleIncentive.Contract) = false :=
  (C19_key_consistency sampleKeeper sample_DisjointNamespaces sample_RoundTrip
    sample_DecRoundTrip abcState abcState_Reachable).2.2 exampleIncentive exampleIncentiveLower
    (by decide)

end Incentives
